import Mathlib

/-!
Verification of the waypoint-graph shortest-path engine (`src/pathfinding.rs`,
`src/math.rs`) against its specification.

The Rust code is shallowly embedded: `f32` edge weights become exact values in
`WithTop ℚ` (`⊤` models `f32::INFINITY`), the dense `Vec<f32>` weight matrix
becomes a function `ℕ → ℕ → WithTop ℚ`, the `BinaryHeap` becomes a list of
entries together with a pop operation that removes the maximum element of the
Rust `Ord` instance, and the two unbounded `while` loops receive explicit fuel
large enough (proved below) to cover every terminating run of the original.
-/

/-- Model of the `f32` cost values: exact rationals extended with `⊤` for
`f32::INFINITY`. -/
abbrev Cost := WithTop ℚ

/-- `struct Node<T> { index: usize, cost: T }` from `pathfinding.rs`. -/
structure Node where
  index : ℕ
  cost : Cost
deriving DecidableEq

/-- `f32::total_cmp` on (non-NaN) costs. -/
def cmpCost (a b : Cost) : Ordering :=
  if a < b then .lt else if b < a then .gt else .eq

/-- `usize::cmp`. -/
def cmpIdx (a b : ℕ) : Ordering :=
  if a < b then .lt else if b < a then .gt else .eq

/-- The `Ord for Node<f32>` implementation:
`other.cost.total_cmp(&self.cost).then_with(|| other.index.cmp(&self.index))`,
with `self = a`, `other = b`. -/
def nodeCmp (a b : Node) : Ordering :=
  (cmpCost b.cost a.cost).then (cmpIdx b.index a.index)

/-- `BinaryHeap::pop`: removes and returns a maximum element with respect to
`nodeCmp` (the heap is modelled as the list of its entries). -/
def heapPop : List Node → Option (Node × List Node)
  | [] => none
  | a :: l =>
    match heapPop l with
    | none => some (a, [])
    | some (m, r) =>
      if nodeCmp a m = .lt then some (m, a :: r) else some (a, m :: r)

/-- The effect of one edge `(i, j)` on the weight matrix: the body of the
`for (i, j) in edges` loop of `Dijkstra::new`, writing
`dist nodes[i] nodes[j]` into both cells `[i][j]` and `[j][i]`. -/
def edgeStep {T α : Type} [Inhabited T] (dist : T → T → α) (nodes : List T)
    (wmat : ℕ → ℕ → WithTop α) (e : ℕ × ℕ) : ℕ → ℕ → WithTop α :=
  fun a b =>
    if (a = e.1 ∧ b = e.2) ∨ (a = e.2 ∧ b = e.1) then
      some (dist (nodes.getD e.1 default) (nodes.getD e.2 default))
    else wmat a b

/-- `Dijkstra::new`: builds the dense weight matrix.  Starting from the
all-`INFINITY` matrix, each edge writes its two cells.
The matrix is modelled as a function of the two indices. -/
def Dijkstra.new {T α : Type} [Inhabited T] (dist : T → T → α)
    (nodes : List T) (edges : List (ℕ × ℕ)) : ℕ → ℕ → WithTop α :=
  edges.foldl (edgeStep dist nodes) (fun _ _ => ⊤)

/-- The per-query scratch state of `Dijkstra::shortest_path`. -/
structure DState where
  costs : ℕ → Cost
  previous : ℕ → ℕ
  heap : List Node
  counter : ℕ

/-- State just before the main loop: `costs = [∞, …]` with `costs[start] = 0`,
`previous = [n, …]`, heap containing `Node { index: start, cost: 0 }`,
`*counter = 0`. -/
def initState (nn start : ℕ) : DState :=
  { costs := Function.update (fun _ => (⊤ : Cost)) start 0
  , previous := fun _ => nn
  , heap := [⟨start, 0⟩]
  , counter := 0 }

/-- One iteration of the inner relaxation loop body, for neighbour `j`:
skip if `weights[cur][j]` is infinite, otherwise relax. -/
def relax (w : ℕ → ℕ → Cost) (cur : Node) (s : DState) (j : ℕ) : DState :=
  if w cur.index j = ⊤ then s
  else if cur.cost + w cur.index j < s.costs j then
    { s with costs := Function.update s.costs j (cur.cost + w cur.index j)
           , previous := Function.update s.previous j cur.index
           , heap := ⟨j, cur.cost + w cur.index j⟩ :: s.heap }
  else s

/-- The inner `for j in 0..self.nodes.len()` loop. -/
def expand (w : ℕ → ℕ → Cost) (nn : ℕ) (cur : Node) (s : DState) : DState :=
  (List.range nn).foldl (relax w cur) s

/-- The main `while let Some(node) = heap.pop()` loop, with explicit fuel.
Returns `some finalState` if the loop finishes (break at `end` or heap
exhaustion) within `fuel` iterations. -/
def searchLoop (w : ℕ → ℕ → Cost) (nn endIdx : ℕ) : ℕ → DState → Option DState
  | 0, _ => none
  | fuel + 1, s =>
    match heapPop s.heap with
    | none => some s
    | some (cur, rest) =>
      let s1 : DState := { s with heap := rest, counter := s.counter + 1 }
      if cur.index = endIdx then some s1
      else if s1.costs cur.index < cur.cost then searchLoop w nn endIdx fuel s1
      else searchLoop w nn endIdx fuel (expand w nn cur s1)

/-- The reconstruction loop `while i != start { path.push(i); i = previous[i] }`,
collecting the pushed indices in order.  `none` models the two possible
non-returns of the Rust loop: the out-of-bounds read `previous[i]` with
`i ≥ n` (a panic), and a cycle among valid indices (an infinite loop, which
exhausts any fuel `≥ n`). -/
def backtrack (nn start : ℕ) (previous : ℕ → ℕ) : ℕ → ℕ → Option (List ℕ)
  | 0, i => if i = start then some [] else none
  | fuel + 1, i =>
    if i = start then some []
    else if i < nn then (backtrack nn start previous fuel (previous i)).map (i :: ·)
    else none

/-- `Dijkstra::shortest_path` on a weight matrix `w` over `nn` nodes.
`some p` is the returned `Vec<usize>`; `none` means the Rust function does not
return normally (panic or divergence).  The loop fuel `nn * nn + 1` is proved
sufficient for every run with non-negative weights. -/
def shortest_path (w : ℕ → ℕ → Cost) (nn start endIdx : ℕ) : Option (List ℕ) :=
  match searchLoop w nn endIdx (nn * nn + 1) (initState nn start) with
  | none => none
  | some s =>
    match backtrack nn start s.previous nn endIdx with
    | none => none
    | some l => some (start :: l.reverse)

/-- 2D point with exact coordinates: model of `Vec2<f32>` from `math.rs`. -/
structure Vec2 where
  x : ℚ
  y : ℚ
deriving DecidableEq

instance : Inhabited Vec2 := ⟨⟨0, 0⟩⟩

/-- Componentwise subtraction of `Vec2`. -/
def Vec2.sub (a b : Vec2) : Vec2 := ⟨a.x - b.x, a.y - b.y⟩

/-- `Dot for Vec2<f32>`: `self.y.mul_add(other.y, self.x * other.x)`. -/
def Vec2.dot (a b : Vec2) : ℚ := a.y * b.y + a.x * b.x

/-- `f32::EPSILON = 2⁻²³`. -/
def f32Epsilon : ℚ := 1 / 2 ^ 23

/-- The radicand of `Distance::distance`:
`delta.dot(delta) + f32::EPSILON` where `delta = self - other`.
The distance itself is `Real.sqrt` of this value. -/
def distanceSq (a b : Vec2) : ℚ :=
  Vec2.dot (Vec2.sub a b) (Vec2.sub a b) + f32Epsilon

/-- Total cost of a path: sum of the weights of consecutive pairs. -/
def pathCost (w : ℕ → ℕ → Cost) : List ℕ → Cost
  | [] => 0
  | [_] => 0
  | a :: b :: l => w a b + pathCost w (b :: l)

/-- `p` is a path from `a` to `b` in the `nn`-node graph with weights `w`:
it starts at `a`, ends at `b`, stays inside the node range, and each
consecutive pair is joined by a finite-weight edge. -/
def IsPath (w : ℕ → ℕ → Cost) (nn a b : ℕ) (p : List ℕ) : Prop :=
  p.head? = some a ∧ p.getLast? = some b ∧ (∀ x ∈ p, x < nn) ∧
    p.Chain' (fun i j => w i j ≠ ⊤)

/-- `a` is popped no earlier than required relative to `b`: `a`'s key
`(cost, index)` is lexicographically at most `b`'s.  `heapPop` returns a
`leKey`-least element (the `Ord` reversal makes the Rust max-heap a min-heap
on this key). -/
def leKey (a b : Node) : Prop :=
  a.cost < b.cost ∨ (a.cost = b.cost ∧ a.index ≤ b.index)

/-- Weight-agnostic loop invariant: every heap entry's index and every
recorded predecessor is a valid node index, and recorded predecessors are
joined to their successor by a finite edge.  Holds for arbitrary weight
matrices and suffices for validity of any successfully returned path. -/
def SlimInv (w : ℕ → ℕ → Cost) (nn : ℕ) (s : DState) : Prop :=
  (∀ e ∈ s.heap, e.index < nn) ∧
    (∀ j, s.previous j ≠ nn → s.previous j < nn ∧ w (s.previous j) j ≠ ⊤)

/-- The part of the search-loop invariant that does not mention the heap and
therefore survives the `break` at the end node.  `E` is the (ghost) set of
expanded ("settled") nodes, `rk u` the (ghost) expansion rank of `u`, and `k`
the number of expansions so far. -/
structure PostInv (w : ℕ → ℕ → Cost) (nn start endIdx : ℕ)
    (E : Finset ℕ) (rk : ℕ → ℕ) (k : ℕ) (s : DState) : Prop where
  hE : ∀ u ∈ E, u < nn
  hrk : ∀ u ∈ E, rk u < k
  hcard : E.card = k
  hEnd : endIdx ∉ E
  hstart0 : s.costs start = 0
  hprevE : ∀ j, s.previous j ≠ nn → s.previous j ∈ E
  hprev : ∀ j, s.previous j ≠ nn →
    s.previous j < nn ∧ s.previous j ≠ j ∧ w (s.previous j) j ≠ ⊤ ∧
      s.costs (s.previous j) + w (s.previous j) j ≤ s.costs j
  hprevRk : ∀ j ∈ E, s.previous j ≠ nn → rk (s.previous j) < rk j
  hprevSet : ∀ j, j ≠ start → j < nn → s.costs j ≠ ⊤ → s.previous j ≠ nn

/-- Full search-loop invariant between iterations.  `last` is the key of the
most recently popped entry (`0` before the first pop); with non-negative
weights the sequence of popped keys is non-decreasing. -/
structure LoopInv (w : ℕ → ℕ → Cost) (nn start endIdx : ℕ)
    (E : Finset ℕ) (rk : ℕ → ℕ) (k : ℕ) (last : Cost) (s : DState)
    extends PostInv w nn start endIdx E rk k s : Prop where
  hlast0 : 0 ≤ last
  hlastTop : last ≠ ⊤
  hheapLt : ∀ e ∈ s.heap, e.index < nn
  hheapFin : ∀ e ∈ s.heap, e.cost ≠ ⊤
  hheapLast : ∀ e ∈ s.heap, last ≤ e.cost
  hheapCost : ∀ e ∈ s.heap, s.costs e.index ≤ e.cost
  hfrozen : ∀ u ∈ E, s.costs u ≤ last
  hEheap : ∀ u ∈ E, ∀ e ∈ s.heap, e.index = u → s.costs u < e.cost
  huniq : ∀ j, (s.heap.countP fun e => decide (e.index = j ∧ e.cost = s.costs j)) ≤ 1
  hwitness : ∀ v, v ∉ E → v < nn → s.costs v ≠ ⊤ →
    ∃ e ∈ s.heap, e.index = v ∧ e.cost = s.costs v
  hrelaxed : ∀ u ∈ E, ∀ v, v < nn → w u v ≠ ⊤ → s.costs v ≤ s.costs u + w u v

/-- Invariant holding while the inner relaxation loop runs for the freshly
popped, not yet settled node `cur`. -/
structure MidInv (w : ℕ → ℕ → Cost) (nn start endIdx : ℕ)
    (E : Finset ℕ) (rk : ℕ → ℕ) (k : ℕ) (cur : Node) (s : DState) : Prop where
  hE : ∀ u ∈ E, u < nn
  hrk : ∀ u ∈ E, rk u < k
  hcard : E.card = k
  hEnd : endIdx ∉ E
  hstart0 : s.costs start = 0
  hcurLt : cur.index < nn
  hcurE : cur.index ∉ E
  hcurEnd : cur.index ≠ endIdx
  hcurFin : cur.cost ≠ ⊤
  hcur0 : 0 ≤ cur.cost
  hcurCost : s.costs cur.index = cur.cost
  hcurHeap : ∀ e ∈ s.heap, e.index = cur.index → s.costs cur.index < e.cost
  hheapLt : ∀ e ∈ s.heap, e.index < nn
  hheapFin : ∀ e ∈ s.heap, e.cost ≠ ⊤
  hheapLast : ∀ e ∈ s.heap, cur.cost ≤ e.cost
  hheapCost : ∀ e ∈ s.heap, s.costs e.index ≤ e.cost
  hfrozen : ∀ u ∈ E, s.costs u ≤ cur.cost
  hEheap : ∀ u ∈ E, ∀ e ∈ s.heap, e.index = u → s.costs u < e.cost
  huniq : ∀ j, (s.heap.countP fun e => decide (e.index = j ∧ e.cost = s.costs j)) ≤ 1
  hwitness : ∀ v, v ∉ E → v ≠ cur.index → v < nn → s.costs v ≠ ⊤ →
    ∃ e ∈ s.heap, e.index = v ∧ e.cost = s.costs v
  hrelaxed : ∀ u ∈ E, ∀ v, v < nn → w u v ≠ ⊤ → s.costs v ≤ s.costs u + w u v
  hprevE : ∀ j, s.previous j ≠ nn → s.previous j ∈ E ∨ s.previous j = cur.index
  hprevEE : ∀ j ∈ E, s.previous j ≠ nn → s.previous j ∈ E
  hprev : ∀ j, s.previous j ≠ nn →
    s.previous j < nn ∧ s.previous j ≠ j ∧ w (s.previous j) j ≠ ⊤ ∧
      s.costs (s.previous j) + w (s.previous j) j ≤ s.costs j
  hprevRk : ∀ j ∈ E, s.previous j ≠ nn → rk (s.previous j) < rk j
  hprevSet : ∀ j, j ≠ start → j < nn → s.costs j ≠ ⊤ → s.previous j ≠ nn

theorem initState_costs_start (nn start : ℕ) :
    (initState nn start).costs start = 0 := by
  simp [initState]

/-! ### Graph-builder lemmas -/

section Builder

variable {T α : Type} [Inhabited T] (dist : T → T → α) (nodes : List T)

theorem foldl_edgeStep_untouched (i j : ℕ) :
    ∀ (edges : List (ℕ × ℕ)) (acc : ℕ → ℕ → WithTop α),
      (∀ e ∈ edges, ¬((i = e.1 ∧ j = e.2) ∨ (i = e.2 ∧ j = e.1))) →
      edges.foldl (edgeStep dist nodes) acc i j = acc i j := by
  intro edges
  induction edges with
  | nil => intro acc _; rfl
  | cons e rest ih =>
    intro acc h
    have hne := h e (by simp)
    have : edgeStep dist nodes acc e i j = acc i j := by
      simp only [edgeStep, if_neg hne]
    simp only [List.foldl_cons]
    rw [ih _ fun f hf => h f (by simp [hf])]
    exact this

theorem foldl_edgeStep_eq (i j : ℕ) (v : WithTop α) :
    ∀ (edges : List (ℕ × ℕ)) (acc : ℕ → ℕ → WithTop α),
      (∀ e ∈ edges, ((i = e.1 ∧ j = e.2) ∨ (i = e.2 ∧ j = e.1)) →
        some (dist (nodes.getD e.1 default) (nodes.getD e.2 default)) = v) →
      ((∃ e ∈ edges, (i = e.1 ∧ j = e.2) ∨ (i = e.2 ∧ j = e.1)) ∨ acc i j = v) →
      edges.foldl (edgeStep dist nodes) acc i j = v := by
  intro edges
  induction edges with
  | nil =>
    intro acc _ hcov
    rcases hcov with ⟨e, he, _⟩ | hacc
    · exact absurd he (List.not_mem_nil e)
    · exact hacc
  | cons e rest ih =>
    intro acc hval hcov
    simp only [List.foldl_cons]
    by_cases hc : (i = e.1 ∧ j = e.2) ∨ (i = e.2 ∧ j = e.1)
    · refine ih _ (fun f hf => hval f (by simp [hf])) (.inr ?_)
      simp only [edgeStep, if_pos hc]
      exact hval e (by simp) hc
    · refine ih _ (fun f hf => hval f (by simp [hf])) ?_
      rcases hcov with ⟨f, hf, hcf⟩ | hacc
      · rcases List.mem_cons.mp hf with rfl | hf
        · exact absurd hcf hc
        · exact .inl ⟨f, hf, hcf⟩
      · right
        simp only [edgeStep, if_neg hc]
        exact hacc

theorem foldl_edgeStep_cases (i j : ℕ) :
    ∀ (edges : List (ℕ × ℕ)) (acc : ℕ → ℕ → WithTop α),
      edges.foldl (edgeStep dist nodes) acc i j = acc i j ∨
        ∃ e ∈ edges, edges.foldl (edgeStep dist nodes) acc i j =
          some (dist (nodes.getD e.1 default) (nodes.getD e.2 default)) := by
  intro edges
  induction edges with
  | nil => intro acc; exact .inl rfl
  | cons e rest ih =>
    intro acc
    simp only [List.foldl_cons]
    rcases ih (edgeStep dist nodes acc e) with h | ⟨f, hf, h⟩
    · rw [h]
      by_cases hc : (i = e.1 ∧ j = e.2) ∨ (i = e.2 ∧ j = e.1)
      · exact .inr ⟨e, by simp, by simp only [edgeStep, if_pos hc]⟩
      · exact .inl (by simp only [edgeStep, if_neg hc])
    · exact .inr ⟨f, by simp [hf], h⟩

end Builder

/-! ### Claim C3: diagonal entries (corrected) -/

/-- C3, as stated, is false: `Dijkstra::new` initialises every cell to
`f32::INFINITY` and only ever writes edge cells, so for the two-node graph
with the single edge `(0, 1)` the diagonal cell `[0][0]` is `+∞`, not `0`. -/
theorem diagonal_zero_cex :
    Dijkstra.new (fun _ _ : Vec2 => (1 : ℚ)) [⟨0, 0⟩, ⟨1, 0⟩] [(0, 1)] 0 0 = ⊤ ∧
      (⊤ : WithTop ℚ) ≠ 0 := by
  constructor
  · decide
  · decide

/-- C3 amended: for every node list and edge list without self-loop edges,
every diagonal entry of the built weight matrix is `+∞` (never written). -/
theorem diagonal_infinity {T α : Type} [Inhabited T] (dist : T → T → α)
    (nodes : List T) (edges : List (ℕ × ℕ))
    (hs : ∀ e ∈ edges, e.1 ≠ e.2) (i : ℕ) :
    Dijkstra.new dist nodes edges i i = ⊤ := by
  unfold Dijkstra.new
  refine foldl_edgeStep_untouched dist nodes i i edges _ fun e he hc => ?_
  rcases hc with ⟨h1, h2⟩ | ⟨h1, h2⟩ <;> exact hs e he (h2 ▸ h1 ▸ rfl)

/-- Witness for `diagonal_infinity` at a concrete graph. -/
theorem diagonal_infinity_w :
    (∀ e ∈ [((0 : ℕ), (1 : ℕ))], e.1 ≠ e.2) ∧
      Dijkstra.new (fun _ _ : Vec2 => (1 : ℚ)) [⟨0, 0⟩, ⟨1, 0⟩] [(0, 1)] 1 1 = ⊤ :=
  ⟨by decide, diagonal_infinity _ _ _ (by decide) 1⟩

/-! ### Claim C5: edge cells and off-diagonal infinity (confirmed) -/

/-- C5: with a symmetric distance function, every pair listed as an edge in
either order has both of its cells equal to the distance between its two
endpoint nodes, and every pair not listed in either order (off the diagonal
or not) keeps the initial `+∞`. -/
theorem edge_cells_spec {T α : Type} [Inhabited T] (dist : T → T → α)
    (nodes : List T) (edges : List (ℕ × ℕ))
    (hsym : ∀ a b, dist a b = dist b a) :
    (∀ i j : ℕ, ((i, j) ∈ edges ∨ (j, i) ∈ edges) →
      Dijkstra.new dist nodes edges i j =
          some (dist (nodes.getD i default) (nodes.getD j default)) ∧
        Dijkstra.new dist nodes edges j i =
          some (dist (nodes.getD i default) (nodes.getD j default))) ∧
    (∀ i j : ℕ, (i, j) ∉ edges → (j, i) ∉ edges →
      Dijkstra.new dist nodes edges i j = ⊤) := by
  constructor
  · intro i j hcov
    have hval : ∀ a b : ℕ, ∀ e ∈ edges,
        ((a = e.1 ∧ b = e.2) ∨ (a = e.2 ∧ b = e.1)) →
        some (dist (nodes.getD e.1 default) (nodes.getD e.2 default)) =
          some (dist (nodes.getD a default) (nodes.getD b default)) := by
      rintro a b e _ (⟨rfl, rfl⟩ | ⟨rfl, rfl⟩)
      · rfl
      · rw [hsym]
    have hex : ∀ a b : ℕ, ((a, b) ∈ edges ∨ (b, a) ∈ edges) →
        ∃ e ∈ edges, (a = e.1 ∧ b = e.2) ∨ (a = e.2 ∧ b = e.1) := by
      rintro a b (h | h)
      · exact ⟨(a, b), h, .inl ⟨rfl, rfl⟩⟩
      · exact ⟨(b, a), h, .inr ⟨rfl, rfl⟩⟩
    constructor
    · exact foldl_edgeStep_eq dist nodes i j _ edges _ (hval i j) (.inl (hex i j hcov))
    · refine foldl_edgeStep_eq dist nodes j i _ edges _ ?_ (.inl (hex j i hcov.symm))
      rintro e he (⟨rfl, rfl⟩ | ⟨rfl, rfl⟩)
      · rw [hsym]
      · rfl
  · intro i j hij hji
    refine foldl_edgeStep_untouched dist nodes i j edges _ ?_
    rintro e he (⟨rfl, rfl⟩ | ⟨rfl, rfl⟩)
    · exact hij he
    · exact hji he

/-- Witness for `edge_cells_spec` at a concrete graph. -/
theorem edge_cells_spec_w :
    Dijkstra.new (fun _ _ : Vec2 => (1 : ℚ)) [⟨0, 0⟩, ⟨1, 0⟩] [(0, 1)] 0 1 = some 1 ∧
      Dijkstra.new (fun _ _ : Vec2 => (1 : ℚ)) [⟨0, 0⟩, ⟨1, 0⟩] [(0, 1)] 1 0 = some 1 ∧
      Dijkstra.new (fun _ _ : Vec2 => (1 : ℚ)) [⟨0, 0⟩, ⟨1, 0⟩] [(0, 1)] 1 1 = ⊤ := by
  have h := edge_cells_spec (fun _ _ : Vec2 => (1 : ℚ)) [⟨0, 0⟩, ⟨1, 0⟩] [(0, 1)]
    (fun _ _ => rfl)
  exact ⟨(h.1 0 1 (.inl (by decide))).1, (h.1 0 1 (.inl (by decide))).2,
    h.2 1 1 (by decide) (by decide)⟩

/-! ### Claim C9: strictly positive distances (confirmed) -/

/-- C9: `Distance::distance` computes `sqrt(dot(a - b, a - b) + f32::EPSILON)`,
which is strictly positive for every pair of points, including `a = b`; hence
every finite weight the graph builder stores is strictly positive. -/
theorem distance_positive :
    (∀ a b : Vec2, 0 < distanceSq a b) ∧
    (∀ a b : Vec2, (0 : ℝ) < Real.sqrt ((distanceSq a b : ℚ) : ℝ)) ∧
    (∀ (nodes : List Vec2) (edges : List (ℕ × ℕ)) (i j : ℕ) (c : ℝ),
      Dijkstra.new (fun a b => Real.sqrt ((distanceSq a b : ℚ) : ℝ)) nodes edges i j
          = some c → 0 < c) := by
  have h1 : ∀ a b : Vec2, 0 < distanceSq a b := by
    intro a b
    simp only [distanceSq, Vec2.dot, Vec2.sub, f32Epsilon]
    have hy := mul_self_nonneg (a.y - b.y)
    have hx := mul_self_nonneg (a.x - b.x)
    have he : (0 : ℚ) < 1 / 2 ^ 23 := by norm_num
    linarith
  have h2 : ∀ a b : Vec2, (0 : ℝ) < Real.sqrt ((distanceSq a b : ℚ) : ℝ) := by
    intro a b
    exact Real.sqrt_pos.mpr (by exact_mod_cast h1 a b)
  refine ⟨h1, h2, ?_⟩
  intro nodes edges i j c hc
  unfold Dijkstra.new at hc
  rcases foldl_edgeStep_cases (fun a b => Real.sqrt ((distanceSq a b : ℚ) : ℝ))
      nodes i j edges _ with h | ⟨e, _, h⟩
  · rw [h] at hc; exact absurd hc (by simp)
  · rw [h] at hc
    obtain rfl : Real.sqrt ((distanceSq (nodes.getD e.1 default)
        (nodes.getD e.2 default) : ℚ) : ℝ) = c := by
      exact_mod_cast congrArg (Option.getD · 0) hc
    exact h2 _ _

/-- Witness for `distance_positive`: two nodes at identical coordinates still
receive a strictly positive edge weight. -/
theorem distance_positive_w :
    Dijkstra.new (fun a b => Real.sqrt ((distanceSq a b : ℚ) : ℝ))
        [(⟨0, 0⟩ : Vec2), ⟨0, 0⟩] [(0, 1)] 0 1
      = some (Real.sqrt ((distanceSq (⟨0, 0⟩ : Vec2) ⟨0, 0⟩ : ℚ) : ℝ)) ∧
    (0 : ℝ) < Real.sqrt ((distanceSq (⟨0, 0⟩ : Vec2) ⟨0, 0⟩ : ℚ) : ℝ) := by
  have hcell : Dijkstra.new (fun a b => Real.sqrt ((distanceSq a b : ℚ) : ℝ))
      [(⟨0, 0⟩ : Vec2), ⟨0, 0⟩] [(0, 1)] 0 1
      = some (Real.sqrt ((distanceSq (⟨0, 0⟩ : Vec2) ⟨0, 0⟩ : ℚ) : ℝ)) := by
    simp [Dijkstra.new, edgeStep, List.foldl_cons]
  exact ⟨hcell, distance_positive.2.2 [⟨0, 0⟩, ⟨0, 0⟩] [(0, 1)] 0 1 _ hcell⟩

/-! ### Heap-pop lemmas -/

theorem leKey_refl (a : Node) : leKey a a := .inr ⟨rfl, le_refl _⟩

theorem leKey_trans {a b c : Node} (hab : leKey a b) (hbc : leKey b c) :
    leKey a c := by
  rcases hab with h1 | ⟨h1, h1i⟩ <;> rcases hbc with h2 | ⟨h2, h2i⟩
  · exact .inl (h1.trans h2)
  · exact .inl (h2 ▸ h1)
  · exact .inl (h1 ▸ h2)
  · exact .inr ⟨h1.trans h2, h1i.trans h2i⟩

theorem nodeCmp_lt_iff (a b : Node) :
    nodeCmp a b = .lt ↔
      (b.cost < a.cost ∨ (b.cost = a.cost ∧ b.index < a.index)) := by
  unfold nodeCmp cmpCost cmpIdx
  rcases lt_trichotomy b.cost a.cost with h | h | h
  · rw [if_pos h]
    exact iff_of_true rfl (Or.inl h)
  · rw [if_neg (by rw [h]; exact lt_irrefl _), if_neg (by rw [h]; exact lt_irrefl _)]
    rcases Nat.lt_trichotomy b.index a.index with hi | hi | hi
    · rw [if_pos hi]
      exact iff_of_true rfl (Or.inr ⟨h, hi⟩)
    · rw [if_neg (by rw [hi]; exact lt_irrefl _), if_neg (by rw [hi]; exact lt_irrefl _)]
      refine iff_of_false (fun hc => Ordering.noConfusion hc) ?_
      rintro (hcc | ⟨-, hii⟩)
      · exact absurd h (ne_of_lt hcc)
      · exact absurd hi (Nat.ne_of_lt hii)
    · rw [if_neg (Nat.lt_asymm hi), if_pos hi]
      refine iff_of_false (fun hc => Ordering.noConfusion hc) ?_
      rintro (hcc | ⟨-, hii⟩)
      · exact absurd h (ne_of_lt hcc)
      · exact absurd hii (Nat.lt_asymm hi)
  · rw [if_neg (lt_asymm h), if_pos h]
    refine iff_of_false (fun hc => Ordering.noConfusion hc) ?_
    rintro (hcc | ⟨hcc, -⟩)
    · exact absurd hcc (lt_asymm h)
    · exact absurd hcc (ne_of_gt h)

theorem nodeCmp_not_lt {a b : Node} (h : nodeCmp a b ≠ .lt) : leKey a b := by
  simp only [ne_eq, nodeCmp_lt_iff] at h
  push_neg at h
  rcases lt_trichotomy a.cost b.cost with hc | hc | hc
  · exact .inl hc
  · exact .inr ⟨hc, h.2 hc.symm⟩
  · exact absurd hc (not_lt.mpr h.1)

theorem nodeCmp_lt {a b : Node} (h : nodeCmp a b = .lt) : leKey b a := by
  rw [nodeCmp_lt_iff] at h
  rcases h with h | ⟨h1, h2⟩
  · exact .inl h
  · exact .inr ⟨h1, le_of_lt h2⟩

theorem heapPop_none {l : List Node} (h : heapPop l = none) : l = [] := by
  cases l with
  | nil => rfl
  | cons a t =>
    exfalso
    rw [heapPop] at h
    rcases hrec : heapPop t with - | ⟨m0, r0⟩ <;> rw [hrec] at h
    · exact Option.noConfusion h
    · have h3 : (if nodeCmp a m0 = .lt then some (m0, a :: r0)
          else some (a, m0 :: r0)) = none := h
      by_cases hc : nodeCmp a m0 = .lt
      · rw [if_pos hc] at h3; exact Option.noConfusion h3
      · rw [if_neg hc] at h3; exact Option.noConfusion h3

theorem heapPop_spec :
    ∀ {l : List Node} {m : Node} {r : List Node}, heapPop l = some (m, r) →
      l.Perm (m :: r) ∧ ∀ x ∈ l, leKey m x := by
  intro l
  induction l with
  | nil => intro m r h; exact Option.noConfusion h
  | cons a t ih =>
    intro m r h
    rw [heapPop] at h
    rcases hrec : heapPop t with - | ⟨m0, r0⟩ <;> rw [hrec] at h
    · have ht : t = [] := heapPop_none hrec
      have h3 : some (a, ([] : List Node)) = some (m, r) := h
      injection h3 with h4
      injection h4 with h5 h6
      subst h5; subst h6; subst ht
      refine ⟨.refl _, ?_⟩
      intro x hx
      rcases List.mem_singleton.mp hx with rfl
      exact leKey_refl x
    · obtain ⟨hperm0, hmin0⟩ := ih hrec
      have h0 : (if nodeCmp a m0 = .lt then some (m0, a :: r0)
          else some (a, m0 :: r0)) = some (m, r) := h
      by_cases hcmp : nodeCmp a m0 = .lt
      · rw [if_pos hcmp] at h0
        injection h0 with h4
        injection h4 with h5 h6
        subst h5; subst h6
        refine ⟨(hperm0.cons a).trans (List.Perm.swap m0 a r0), ?_⟩
        intro x hx
        rcases List.mem_cons.mp hx with rfl | hx
        · exact nodeCmp_lt hcmp
        · exact hmin0 x hx
      · rw [if_neg hcmp] at h0
        injection h0 with h4
        injection h4 with h5 h6
        subst h5; subst h6
        refine ⟨hperm0.cons a, ?_⟩
        intro x hx
        rcases List.mem_cons.mp hx with rfl | hx
        · exact leKey_refl x
        · exact leKey_trans (nodeCmp_not_lt hcmp) (hmin0 x hx)

theorem heapPop_mem {l : List Node} {m : Node} {r : List Node}
    (h : heapPop l = some (m, r)) : m ∈ l :=
  (heapPop_spec h).1.symm.subset (List.mem_cons_self m r)

theorem heapPop_sub {l : List Node} {m : Node} {r : List Node}
    (h : heapPop l = some (m, r)) : ∀ x ∈ r, x ∈ l :=
  fun _ hx => (heapPop_spec h).1.symm.subset (List.mem_cons_of_mem m hx)

theorem heapPop_length {l : List Node} {m : Node} {r : List Node}
    (h : heapPop l = some (m, r)) : l.length = r.length + 1 := by
  simpa using (heapPop_spec h).1.length_eq

theorem heapPop_countP {l : List Node} {m : Node} {r : List Node}
    (h : heapPop l = some (m, r)) (p : Node → Bool) :
    l.countP p = (if p m then 1 else 0) + r.countP p := by
  rw [(heapPop_spec h).1.countP_eq]
  simp [List.countP_cons]
  rcases hp : p m <;> simp [hp, Nat.add_comm]

/-! ### Path lemmas -/

theorem pathCost_nonneg {w : ℕ → ℕ → Cost} (hw : ∀ i j, 0 ≤ w i j) :
    ∀ p, 0 ≤ pathCost w p := by
  intro p
  induction p with
  | nil => exact le_refl _
  | cons a t ih =>
    cases t with
    | nil => exact le_refl _
    | cons b t2 => exact add_nonneg (hw a b) ih

theorem pathCost_ne_top {w : ℕ → ℕ → Cost} :
    ∀ {p : List ℕ}, p.Chain' (fun i j => w i j ≠ ⊤) → pathCost w p ≠ ⊤ := by
  intro p
  induction p with
  | nil => intro _; exact (by simp [pathCost] : pathCost w [] ≠ ⊤)
  | cons a t ih =>
    intro hch
    cases t with
    | nil => simp [pathCost]
    | cons b t2 =>
      have h1 : w a b ≠ ⊤ := (List.chain'_cons.mp hch).1
      have h2 := ih (List.chain'_cons.mp hch).2
      simp only [pathCost]
      exact WithTop.add_ne_top.mpr ⟨h1, h2⟩

theorem pathCost_snoc {w : ℕ → ℕ → Cost} :
    ∀ {p : List ℕ} {b u : ℕ}, p.getLast? = some b →
      pathCost w (p ++ [u]) = pathCost w p + w b u := by
  intro p
  induction p with
  | nil => intro b u h; exact Option.noConfusion h
  | cons a t ih =>
    intro b u h
    cases t with
    | nil =>
      obtain rfl : a = b := by simpa using h
      simp [pathCost, zero_add, add_zero]
    | cons c t2 =>
      have hlast : (c :: t2).getLast? = some b := by
        rwa [List.getLast?_cons_cons] at h
      have hih := ih (u := u) hlast
      have e2 : (c :: t2) ++ [u] = c :: (t2 ++ [u]) := rfl
      calc pathCost w ((a :: c :: t2) ++ [u])
          = w a c + pathCost w ((c :: t2) ++ [u]) := by rw [List.cons_append, e2]; rfl
        _ = w a c + (pathCost w (c :: t2) + w b u) := by rw [hih]
        _ = pathCost w (a :: c :: t2) + w b u := by
            rw [← add_assoc]
            rfl

theorem isPath_snoc {w : ℕ → ℕ → Cost} {nn a b u : ℕ} {p : List ℕ}
    (hp : IsPath w nn a b p) (hw : w b u ≠ ⊤) (hu : u < nn) :
    IsPath w nn a u (p ++ [u]) := by
  obtain ⟨hhead, hlast, hmem, hchain⟩ := hp
  have hne : p ≠ [] := by
    intro h; rw [h] at hhead; exact Option.noConfusion hhead
  refine ⟨?_, ?_, ?_, ?_⟩
  · cases p with
    | nil => exact absurd rfl hne
    | cons x t => simpa using hhead
  · simp
  · intro x hx
    rcases List.mem_append.mp hx with hx | hx
    · exact hmem x hx
    · rcases List.mem_singleton.mp hx with rfl; exact hu
  · rw [List.chain'_append]
    refine ⟨hchain, List.chain'_singleton u, ?_⟩
    intro x hx y hy
    rw [hlast] at hx
    obtain rfl : b = x := by simpa using hx
    obtain rfl : u = y := by simpa using hy
    exact hw

theorem isPath_tail {w : ℕ → ℕ → Cost} {nn a b y : ℕ} {l : List ℕ}
    (hp : IsPath w nn a b (a :: y :: l)) : IsPath w nn y b (y :: l) := by
  obtain ⟨_, hlast, hmem, hchain⟩ := hp
  exact ⟨rfl, by rwa [List.getLast?_cons_cons] at hlast,
    fun x hx => hmem x (List.mem_cons_of_mem a hx),
    (List.chain'_cons.mp hchain).2⟩

theorem leKey_cost_le {a b : Node} (h : leKey a b) : a.cost ≤ b.cost := by
  rcases h with h | ⟨h, -⟩
  · exact le_of_lt h
  · exact le_of_eq h

/-! ### The crossing argument: any path to an unsettled node passes through an
unsettled node whose tentative cost bounds the path cost. -/

theorem cross_lemma {w : ℕ → ℕ → Cost} {nn : ℕ} {E : Finset ℕ} {s : DState}
    (hw : ∀ i j, 0 ≤ w i j)
    (hrelaxed : ∀ u ∈ E, ∀ v, v < nn → w u v ≠ ⊤ → s.costs v ≤ s.costs u + w u v) :
    ∀ (p : List ℕ) (a b : ℕ), IsPath w nn a b p → b ∉ E →
      ∃ v, v ∉ E ∧ v < nn ∧ s.costs v ≤ s.costs a + pathCost w p := by
  intro p
  induction p with
  | nil => intro a b hp _; exact absurd hp.1 (by simp)
  | cons x t ih =>
    intro a b hp hbE
    obtain ⟨hhead, hlast, hmem, hchain⟩ := hp
    obtain rfl : x = a := by simpa using hhead
    cases t with
    | nil =>
      obtain rfl : x = b := by simpa using hlast
      refine ⟨x, hbE, hmem x (by simp), ?_⟩
      simp [pathCost]
    | cons y t2 =>
      by_cases haE : x ∈ E
      · have hwy : w x y ≠ ⊤ := (List.chain'_cons.mp hchain).1
        have hy : y < nn := hmem y (by simp)
        have h1 : s.costs y ≤ s.costs x + w x y := hrelaxed x haE y hy hwy
        obtain ⟨v, hvE, hvlt, hv⟩ := ih y b (isPath_tail ⟨rfl, hlast, hmem, hchain⟩) hbE
        refine ⟨v, hvE, hvlt, ?_⟩
        calc s.costs v ≤ s.costs y + pathCost w (y :: t2) := hv
          _ ≤ (s.costs x + w x y) + pathCost w (y :: t2) := add_le_add_right h1 _
          _ = s.costs x + pathCost w (x :: y :: t2) := by rw [add_assoc]; rfl
      · refine ⟨x, haE, hmem x (by simp), ?_⟩
        exact le_add_of_nonneg_right (pathCost_nonneg hw _)

/-! ### Lower bounds on the final cost of the end node at both loop exits -/

theorem exhaust_LB {w : ℕ → ℕ → Cost} {nn start endIdx : ℕ} {E : Finset ℕ}
    {rk : ℕ → ℕ} {k : ℕ} {last : Cost} {s : DState}
    (hw : ∀ i j, 0 ≤ w i j)
    (hinv : LoopInv w nn start endIdx E rk k last s) (hheap : s.heap = []) :
    ∀ q, IsPath w nn start endIdx q → s.costs endIdx ≤ pathCost w q := by
  intro q hq
  obtain ⟨v, hvE, hvlt, hv⟩ :=
    cross_lemma hw hinv.hrelaxed q start endIdx hq hinv.hEnd
  rw [hinv.hstart0, zero_add] at hv
  by_cases hvfin : s.costs v = ⊤
  · rw [hvfin] at hv
    have hq : pathCost w q = ⊤ := top_le_iff.mp hv
    rw [hq]; exact le_top
  · obtain ⟨e, heMem, -, -⟩ := hinv.hwitness v hvE hvlt hvfin
    rw [hheap] at heMem
    exact absurd heMem (List.not_mem_nil e)

theorem break_LB {w : ℕ → ℕ → Cost} {nn start endIdx : ℕ} {E : Finset ℕ}
    {rk : ℕ → ℕ} {k : ℕ} {last : Cost} {s : DState} {cur : Node} {rest : List Node}
    (hw : ∀ i j, 0 ≤ w i j)
    (hinv : LoopInv w nn start endIdx E rk k last s)
    (hpop : heapPop s.heap = some (cur, rest)) (hcur : cur.index = endIdx) :
    ∀ q, IsPath w nn start endIdx q → s.costs endIdx ≤ pathCost w q := by
  intro q hq
  have hmem := heapPop_mem hpop
  have hmin := (heapPop_spec hpop).2
  have hcostEnd : s.costs endIdx ≤ cur.cost := hcur ▸ hinv.hheapCost cur hmem
  obtain ⟨v, hvE, hvlt, hv⟩ :=
    cross_lemma hw hinv.hrelaxed q start endIdx hq hinv.hEnd
  rw [hinv.hstart0, zero_add] at hv
  by_cases hvfin : s.costs v = ⊤
  · rw [hvfin] at hv
    have hq2 : pathCost w q = ⊤ := top_le_iff.mp hv
    rw [hq2]; exact le_top
  · obtain ⟨e, heMem, heIdx, heCost⟩ := hinv.hwitness v hvE hvlt hvfin
    calc s.costs endIdx ≤ cur.cost := hcostEnd
      _ ≤ e.cost := leKey_cost_le (hmin e heMem)
      _ = s.costs v := heCost
      _ ≤ pathCost w q := hv

/-! ### Pop transitions -/

theorem pop_to_mid {w : ℕ → ℕ → Cost} {nn start endIdx : ℕ} {E : Finset ℕ}
    {rk : ℕ → ℕ} {k : ℕ} {last : Cost} {s : DState} {cur : Node} {rest : List Node}
    (hinv : LoopInv w nn start endIdx E rk k last s)
    (hpop : heapPop s.heap = some (cur, rest))
    (hne : cur.index ≠ endIdx)
    (hnstale : ¬ s.costs cur.index < cur.cost) :
    MidInv w nn start endIdx E rk k cur
      { s with heap := rest, counter := s.counter + 1 } := by
  obtain ⟨hperm, hmin⟩ := heapPop_spec hpop
  have hmem : cur ∈ s.heap := hperm.symm.subset (List.mem_cons_self ..)
  have hsub : ∀ x ∈ rest, x ∈ s.heap :=
    fun x hx => hperm.symm.subset (List.mem_cons_of_mem _ hx)
  have hcurLt : cur.index < nn := hinv.hheapLt cur hmem
  have hcurFin : cur.cost ≠ ⊤ := hinv.hheapFin cur hmem
  have hcurCost : s.costs cur.index = cur.cost :=
    le_antisymm (hinv.hheapCost cur hmem) (not_lt.mp hnstale)
  have hcurE : cur.index ∉ E := fun hE =>
    absurd (hinv.hEheap cur.index hE cur hmem rfl)
      (by rw [hcurCost]; exact lt_irrefl _)
  have hcount :
      (rest.countP fun e => decide (e.index = cur.index ∧ e.cost = s.costs cur.index)) = 0 := by
    have h1 := hinv.huniq cur.index
    have h2 := (hperm.countP_eq
      (fun e => decide (e.index = cur.index ∧ e.cost = s.costs cur.index)))
    rw [h2, List.countP_cons_of_pos _ _ (by simp [hcurCost])] at h1
    omega
  have hrestCur : ∀ e ∈ rest, e.index = cur.index → s.costs cur.index < e.cost := by
    intro e he hidx
    have hnp := List.countP_eq_zero.mp hcount e he
    simp only [hidx, true_and, decide_eq_true_eq] at hnp
    exact lt_of_le_of_ne (by rw [← hidx]; exact hinv.hheapCost e (hsub e he))
      (fun hc => hnp hc.symm)
  refine
  { hE := hinv.hE, hrk := hinv.hrk, hcard := hinv.hcard, hEnd := hinv.hEnd
  , hstart0 := hinv.hstart0
  , hcurLt := hcurLt, hcurE := hcurE, hcurEnd := hne, hcurFin := hcurFin
  , hcur0 := le_trans hinv.hlast0 (hinv.hheapLast cur hmem)
  , hcurCost := hcurCost
  , hcurHeap := hrestCur
  , hheapLt := fun e he => hinv.hheapLt e (hsub e he)
  , hheapFin := fun e he => hinv.hheapFin e (hsub e he)
  , hheapLast := fun e he => leKey_cost_le (hmin e (hsub e he))
  , hheapCost := fun e he => hinv.hheapCost e (hsub e he)
  , hfrozen := fun u hu =>
      le_trans (hinv.hfrozen u hu) (hinv.hheapLast cur hmem)
  , hEheap := fun u hu e he hidx => hinv.hEheap u hu e (hsub e he) hidx
  , huniq := ?_
  , hwitness := ?_
  , hrelaxed := hinv.hrelaxed
  , hprevE := fun j hj => .inl (hinv.hprevE j hj)
  , hprevEE := fun j _ hj => hinv.hprevE j hj
  , hprev := hinv.hprev
  , hprevRk := hinv.hprevRk
  , hprevSet := hinv.hprevSet }
  · intro j
    have h1 := hinv.huniq j
    have h2 := (hperm.countP_eq
      (fun e => decide (e.index = j ∧ e.cost = s.costs j)))
    rw [h2, List.countP_cons] at h1
    exact le_trans (Nat.le_add_right _ _) h1
  · intro v hvE hvCur hvLt hvFin
    obtain ⟨e, heMem, heIdx, heCost⟩ := hinv.hwitness v hvE hvLt hvFin
    have : e ∈ cur :: rest := hperm.subset heMem
    rcases List.mem_cons.mp this with rfl | hrest
    · exact absurd heIdx.symm hvCur
    · exact ⟨e, hrest, heIdx, heCost⟩

theorem pop_stale {w : ℕ → ℕ → Cost} {nn start endIdx : ℕ} {E : Finset ℕ}
    {rk : ℕ → ℕ} {k : ℕ} {last : Cost} {s : DState} {cur : Node} {rest : List Node}
    (hinv : LoopInv w nn start endIdx E rk k last s)
    (hpop : heapPop s.heap = some (cur, rest))
    (hstale : s.costs cur.index < cur.cost) :
    LoopInv w nn start endIdx E rk k cur.cost
      { s with heap := rest, counter := s.counter + 1 } := by
  obtain ⟨hperm, hmin⟩ := heapPop_spec hpop
  have hmem : cur ∈ s.heap := hperm.symm.subset (List.mem_cons_self ..)
  have hsub : ∀ x ∈ rest, x ∈ s.heap :=
    fun x hx => hperm.symm.subset (List.mem_cons_of_mem _ hx)
  refine
  { hE := hinv.hE, hrk := hinv.hrk, hcard := hinv.hcard, hEnd := hinv.hEnd
  , hstart0 := hinv.hstart0
  , hprevE := hinv.hprevE, hprev := hinv.hprev, hprevRk := hinv.hprevRk
  , hprevSet := hinv.hprevSet
  , hlast0 := le_trans hinv.hlast0 (hinv.hheapLast cur hmem)
  , hlastTop := hinv.hheapFin cur hmem
  , hheapLt := fun e he => hinv.hheapLt e (hsub e he)
  , hheapFin := fun e he => hinv.hheapFin e (hsub e he)
  , hheapLast := fun e he => leKey_cost_le (hmin e (hsub e he))
  , hheapCost := fun e he => hinv.hheapCost e (hsub e he)
  , hfrozen := fun u hu =>
      le_trans (hinv.hfrozen u hu) (hinv.hheapLast cur hmem)
  , hEheap := fun u hu e he hidx => hinv.hEheap u hu e (hsub e he) hidx
  , huniq := ?_
  , hwitness := ?_
  , hrelaxed := hinv.hrelaxed }
  · intro j
    have h1 := hinv.huniq j
    have h2 := (hperm.countP_eq
      (fun e => decide (e.index = j ∧ e.cost = s.costs j)))
    rw [h2, List.countP_cons] at h1
    exact le_trans (Nat.le_add_right _ _) h1
  · intro v hvE hvLt hvFin
    obtain ⟨e, heMem, heIdx, heCost⟩ := hinv.hwitness v hvE hvLt hvFin
    have : e ∈ cur :: rest := hperm.subset heMem
    rcases List.mem_cons.mp this with rfl | hrest
    · exfalso
      rw [heIdx, heCost] at hstale
      exact lt_irrefl _ hstale
    · exact ⟨e, hrest, heIdx, heCost⟩

/-! ### Preservation of the invariant by one relaxation step -/

theorem relax_mid {w : ℕ → ℕ → Cost} {nn start endIdx : ℕ} {E : Finset ℕ}
    {rk : ℕ → ℕ} {k : ℕ} {cur : Node} {s : DState}
    (hw : ∀ i j, 0 ≤ w i j)
    (hmid : MidInv w nn start endIdx E rk k cur s) (j : ℕ) (hj : j < nn) :
    MidInv w nn start endIdx E rk k cur (relax w cur s j) := by
  unfold relax
  by_cases hwj : w cur.index j = ⊤
  · rw [if_pos hwj]; exact hmid
  rw [if_neg hwj]
  by_cases hlt : cur.cost + w cur.index j < s.costs j
  swap
  · rw [if_neg hlt]; exact hmid
  rw [if_pos hlt]
  set c := cur.cost + w cur.index j with hcdef
  have hcfin : c ≠ ⊤ := WithTop.add_ne_top.mpr ⟨hmid.hcurFin, hwj⟩
  have hcge : cur.cost ≤ c := le_add_of_nonneg_right (hw _ _)
  have hjcur : j ≠ cur.index := by
    intro hjc
    rw [hjc, hmid.hcurCost] at hlt
    exact absurd hcge (not_le.mpr hlt)
  have hjE : j ∉ E := by
    intro hjE
    exact absurd (lt_of_lt_of_le hlt (le_trans (hmid.hfrozen j hjE) hcge))
      (lt_irrefl c)
  have hc0 : (0 : Cost) ≤ c := le_trans hmid.hcur0 hcge
  have hjstart : j ≠ start := by
    intro hjs
    rw [hjs, hmid.hstart0] at hlt
    exact absurd hc0 (not_le.mpr hlt)
  have hmono : ∀ x, Function.update s.costs j c x ≤ s.costs x := by
    intro x
    rcases eq_or_ne x j with rfl | hx
    · rw [Function.update_same]; exact le_of_lt hlt
    · rw [Function.update_noteq hx]
  refine
  { hE := hmid.hE, hrk := hmid.hrk, hcard := hmid.hcard, hEnd := hmid.hEnd
  , hcurLt := hmid.hcurLt, hcurE := hmid.hcurE, hcurEnd := hmid.hcurEnd
  , hcurFin := hmid.hcurFin, hcur0 := hmid.hcur0
  , hstart0 := ?_, hcurCost := ?_, hcurHeap := ?_, hheapLt := ?_
  , hheapFin := ?_, hheapLast := ?_, hheapCost := ?_, hfrozen := ?_
  , hEheap := ?_, huniq := ?_, hwitness := ?_, hrelaxed := ?_
  , hprevE := ?_, hprevEE := ?_, hprev := ?_, hprevRk := ?_, hprevSet := ?_ }
  · dsimp only
    rw [Function.update_noteq (Ne.symm hjstart)]
    exact hmid.hstart0
  · dsimp only
    rw [Function.update_noteq (Ne.symm hjcur)]
    exact hmid.hcurCost
  · dsimp only
    intro e he hidx
    rw [Function.update_noteq (Ne.symm hjcur)]
    rcases List.mem_cons.mp he with rfl | he
    · exact absurd hidx hjcur
    · exact hmid.hcurHeap e he hidx
  · dsimp only
    intro e he
    rcases List.mem_cons.mp he with rfl | he
    · exact hj
    · exact hmid.hheapLt e he
  · dsimp only
    intro e he
    rcases List.mem_cons.mp he with rfl | he
    · exact hcfin
    · exact hmid.hheapFin e he
  · dsimp only
    intro e he
    rcases List.mem_cons.mp he with rfl | he
    · exact hcge
    · exact hmid.hheapLast e he
  · dsimp only
    intro e he
    rcases List.mem_cons.mp he with rfl | he
    · rw [Function.update_same]
    · exact le_trans (hmono e.index) (hmid.hheapCost e he)
  · dsimp only
    intro u hu
    exact le_trans (hmono u) (hmid.hfrozen u hu)
  · dsimp only
    intro u hu e he hidx
    have huj : u ≠ j := fun hc => hjE (hc ▸ hu)
    rw [Function.update_noteq huj]
    rcases List.mem_cons.mp he with rfl | he
    · exact absurd hidx.symm huj
    · exact hmid.hEheap u hu e he hidx
  · dsimp only
    intro m
    rcases eq_or_ne m j with rfl | hm
    · simp only [Function.update_same]
      rw [List.countP_cons_of_pos _ _ (by simp)]
      have hz : (s.heap.countP fun e => decide (e.index = m ∧ e.cost = c)) = 0 := by
        rw [List.countP_eq_zero]
        intro e he
        simp only [decide_eq_true_eq, not_and]
        intro hidx hcost
        have h2 := hmid.hheapCost e he
        rw [hidx, hcost] at h2
        exact absurd hlt (not_lt.mpr h2)
      rw [hz]
    · simp only [Function.update_noteq hm]
      rw [List.countP_cons_of_neg _ _ (by simp [Ne.symm hm])]
      exact hmid.huniq m
  · dsimp only
    intro v hvE hvCur hvLt hvFin
    rcases eq_or_ne v j with rfl | hv
    · exact ⟨⟨v, c⟩, List.mem_cons_self .., rfl, by rw [Function.update_same]⟩
    · rw [Function.update_noteq hv] at hvFin ⊢
      obtain ⟨e, heMem, heIdx, heCost⟩ := hmid.hwitness v hvE hvCur hvLt hvFin
      exact ⟨e, List.mem_cons_of_mem _ heMem, heIdx, heCost⟩
  · dsimp only
    intro u hu v hvLt hwv
    have huj : u ≠ j := fun hc => hjE (hc ▸ hu)
    rw [Function.update_noteq huj]
    exact le_trans (hmono v) (hmid.hrelaxed u hu v hvLt hwv)
  · dsimp only
    intro m hm
    rcases eq_or_ne m j with rfl | hmj
    · rw [Function.update_same]
      exact .inr rfl
    · rw [Function.update_noteq hmj] at hm ⊢
      exact hmid.hprevE m hm
  · dsimp only
    intro m hmE hm
    have hmj : m ≠ j := fun hc => hjE (hc ▸ hmE)
    rw [Function.update_noteq hmj] at hm ⊢
    exact hmid.hprevEE m hmE hm
  · dsimp only
    intro m hm
    rcases eq_or_ne m j with rfl | hmj
    · rw [Function.update_same] at hm ⊢
      refine ⟨hmid.hcurLt, Ne.symm hjcur, hwj, ?_⟩
      rw [Function.update_noteq (Ne.symm hjcur), Function.update_same,
        hmid.hcurCost]
    · rw [Function.update_noteq hmj] at hm ⊢
      obtain ⟨h1, h2, h3, h4⟩ := hmid.hprev m hm
      refine ⟨h1, h2, h3, ?_⟩
      rw [Function.update_noteq hmj]
      exact le_trans (add_le_add_right (hmono (s.previous m)) _) h4
  · dsimp only
    intro m hmE hm
    have hmj : m ≠ j := fun hc => hjE (hc ▸ hmE)
    rw [Function.update_noteq hmj] at hm ⊢
    exact hmid.hprevRk m hmE hm
  · dsimp only
    intro m hmstart hmLt hmFin
    rcases eq_or_ne m j with rfl | hmj
    · rw [Function.update_same]
      exact Nat.ne_of_lt hmid.hcurLt
    · rw [Function.update_noteq hmj] at hmFin ⊢
      exact hmid.hprevSet m hmstart hmLt hmFin

/-! ### The inner relaxation loop -/

theorem relax_costs_le {w : ℕ → ℕ → Cost} {cur : Node} {s : DState} {j : ℕ} :
    ∀ x, (relax w cur s j).costs x ≤ s.costs x := by
  intro x
  unfold relax
  by_cases hwj : w cur.index j = ⊤
  · rw [if_pos hwj]
  · rw [if_neg hwj]
    by_cases hlt : cur.cost + w cur.index j < s.costs j
    · rw [if_pos hlt]
      dsimp only
      rcases eq_or_ne x j with rfl | hx
      · rw [Function.update_same]; exact le_of_lt hlt
      · rw [Function.update_noteq hx]
    · rw [if_neg hlt]

theorem foldl_costs_le {w : ℕ → ℕ → Cost} {cur : Node} :
    ∀ (L : List ℕ) (s : DState) (x : ℕ),
      (L.foldl (relax w cur) s).costs x ≤ s.costs x := by
  intro L
  induction L with
  | nil => intro s x; exact le_refl _
  | cons j t ih =>
    intro s x
    rw [List.foldl_cons]
    exact le_trans (ih _ x) (relax_costs_le x)

theorem foldl_relaxes {w : ℕ → ℕ → Cost} {cur : Node} :
    ∀ (L : List ℕ) (s : DState) (v : ℕ), v ∈ L → w cur.index v ≠ ⊤ →
      (L.foldl (relax w cur) s).costs v ≤ cur.cost + w cur.index v := by
  intro L
  induction L with
  | nil => intro s v hv _; exact absurd hv (List.not_mem_nil v)
  | cons j t ih =>
    intro s v hv hwv
    rw [List.foldl_cons]
    rcases List.mem_cons.mp hv with rfl | hv
    · have hstep : (relax w cur s v).costs v ≤ cur.cost + w cur.index v := by
        unfold relax
        rw [if_neg hwv]
        by_cases hlt : cur.cost + w cur.index v < s.costs v
        · rw [if_pos hlt]
          dsimp only
          rw [Function.update_same]
        · rw [if_neg hlt]
          exact not_lt.mp hlt
      exact le_trans (foldl_costs_le t _ v) hstep
    · exact ih _ v hv hwv

theorem expand_fold_mid {w : ℕ → ℕ → Cost} {nn start endIdx : ℕ} {E : Finset ℕ}
    {rk : ℕ → ℕ} {k : ℕ} {cur : Node}
    (hw : ∀ i j, 0 ≤ w i j) :
    ∀ (L : List ℕ) (s : DState), MidInv w nn start endIdx E rk k cur s →
      (∀ j ∈ L, j < nn) →
      MidInv w nn start endIdx E rk k cur (L.foldl (relax w cur) s) ∧
        (L.foldl (relax w cur) s).heap.length ≤
          s.heap.length + (L.countP fun j => decide (j ≠ cur.index)) := by
  intro L
  induction L with
  | nil => intro s hmid _; exact ⟨hmid, by simp⟩
  | cons j t ih =>
    intro s hmid hL
    have hj : j < nn := hL j (by simp)
    have hmid1 := relax_mid hw hmid j hj
    obtain ⟨hmid2, hlen⟩ := ih (relax w cur s j) hmid1 (fun x hx => hL x (by simp [hx]))
    rw [List.foldl_cons]
    refine ⟨hmid2, ?_⟩
    have hstep : (relax w cur s j).heap.length ≤
        s.heap.length + (if j = cur.index then 0 else 1) := by
      unfold relax
      by_cases hwj : w cur.index j = ⊤
      · rw [if_pos hwj]; split <;> omega
      rw [if_neg hwj]
      by_cases hlt : cur.cost + w cur.index j < s.costs j
      · rw [if_pos hlt]
        have hne : j ≠ cur.index := by
          intro hc
          rw [hc, hmid.hcurCost] at hlt
          exact absurd (le_add_of_nonneg_right (hw _ _)) (not_le.mpr hlt)
        rw [if_neg hne]
        dsimp only
        simp
      · rw [if_neg hlt]; split <;> omega
    rw [List.countP_cons]
    by_cases hc : j = cur.index
    · have hp : (decide (j ≠ cur.index)) = false := by simp [hc]
      rw [hp, if_neg (by simp)]
      have hstep2 : (relax w cur s j).heap.length ≤ s.heap.length := by
        rw [if_pos hc] at hstep; omega
      omega
    · have hp : (decide (j ≠ cur.index)) = true := by simp [hc]
      rw [hp, if_pos rfl]
      have hstep2 : (relax w cur s j).heap.length ≤ s.heap.length + 1 := by
        rw [if_neg hc] at hstep; omega
      omega

theorem countP_split (l : List ℕ) (p : ℕ → Bool) :
    l.countP p + l.countP (fun x => !(p x)) = l.length := by
  induction l with
  | nil => rfl
  | cons a t ih =>
    rw [List.countP_cons, List.countP_cons, List.length_cons]
    rcases h : p a <;> simp [h] <;> omega

theorem countP_range_ne {c nn : ℕ} (hc : c < nn) :
    ((List.range nn).countP fun j => decide (j ≠ c)) ≤ nn - 1 := by
  have h1 := countP_split (List.range nn) (fun j => decide (j = c))
  rw [List.length_range] at h1
  have h2 : 0 < (List.range nn).countP (fun j => decide (j = c)) := by
    rw [List.countP_pos_iff]
    exact ⟨c, List.mem_range.mpr hc, by simp⟩
  have h3 : ((List.range nn).countP fun j => decide (j ≠ c)) =
      (List.range nn).countP (fun j => !(decide (j = c))) := by
    apply List.countP_congr
    intro x _
    simp
  omega

/-! ### Settling the popped node -/

theorem mid_to_inv {w : ℕ → ℕ → Cost} {nn start endIdx : ℕ} {E : Finset ℕ}
    {rk : ℕ → ℕ} {k : ℕ} {cur : Node} {s : DState}
    (hmid : MidInv w nn start endIdx E rk k cur s)
    (hrel : ∀ v, v < nn → w cur.index v ≠ ⊤ →
      s.costs v ≤ cur.cost + w cur.index v) :
    LoopInv w nn start endIdx (insert cur.index E)
      (Function.update rk cur.index k) (k + 1) cur.cost s := by
  have hcurE := hmid.hcurE
  refine
  { hE := ?_, hrk := ?_, hcard := ?_, hEnd := ?_, hstart0 := hmid.hstart0
  , hprevE := ?_, hprev := hmid.hprev, hprevRk := ?_, hprevSet := hmid.hprevSet
  , hlast0 := hmid.hcur0, hlastTop := hmid.hcurFin
  , hheapLt := hmid.hheapLt, hheapFin := hmid.hheapFin
  , hheapLast := hmid.hheapLast, hheapCost := hmid.hheapCost
  , hfrozen := ?_, hEheap := ?_, huniq := hmid.huniq, hwitness := ?_
  , hrelaxed := ?_ }
  · intro u hu
    rcases Finset.mem_insert.mp hu with rfl | hu
    · exact hmid.hcurLt
    · exact hmid.hE u hu
  · intro u hu
    rcases Finset.mem_insert.mp hu with rfl | hu
    · rw [Function.update_same]; exact Nat.lt_succ_self _
    · rw [Function.update_noteq (fun hc => hcurE (by rwa [hc] at hu))]
      exact Nat.lt_succ_of_lt (hmid.hrk u hu)
  · rw [Finset.card_insert_of_not_mem hcurE, hmid.hcard]
  · intro hc
    rcases Finset.mem_insert.mp hc with hc | hc
    · exact hmid.hcurEnd hc.symm
    · exact hmid.hEnd hc
  · intro m hm
    rcases hmid.hprevE m hm with h | h
    · exact Finset.mem_insert_of_mem h
    · rw [h]; exact Finset.mem_insert_self ..
  · intro m hmE hm
    rcases Finset.mem_insert.mp hmE with rfl | hmE
    · have h2 := (hmid.hprev _ hm).2.1
      rcases hmid.hprevE _ hm with h | h
      · rw [Function.update_same, Function.update_noteq h2]
        exact hmid.hrk _ h
      · exact absurd h h2
    · have hmcur : m ≠ cur.index := fun hc => hcurE (by rwa [hc] at hmE)
      have h := hmid.hprevEE m hmE hm
      have hpcur : s.previous m ≠ cur.index := fun hc => hcurE (by rwa [hc] at h)
      rw [Function.update_noteq hmcur, Function.update_noteq hpcur]
      exact hmid.hprevRk m hmE hm
  · intro u hu
    rcases Finset.mem_insert.mp hu with rfl | hu
    · exact le_of_eq hmid.hcurCost
    · exact hmid.hfrozen u hu
  · intro u hu e he hidx
    rcases Finset.mem_insert.mp hu with rfl | hu
    · exact hmid.hcurHeap e he hidx
    · exact hmid.hEheap u hu e he hidx
  · intro v hv hvLt hvFin
    have h1 : v ≠ cur.index := fun hc => hv (by rw [hc]; exact Finset.mem_insert_self ..)
    have h2 : v ∉ E := fun hc => hv (Finset.mem_insert_of_mem hc)
    exact hmid.hwitness v h2 h1 hvLt hvFin
  · intro u hu v hvLt hwv
    rcases Finset.mem_insert.mp hu with rfl | hu
    · rw [hmid.hcurCost]
      exact hrel v hvLt hwv
    · exact hmid.hrelaxed u hu v hvLt hwv

/-! ### The initial state satisfies the invariant -/

theorem init_inv {w : ℕ → ℕ → Cost} {nn start endIdx : ℕ}
    (hstart : start < nn) :
    LoopInv w nn start endIdx ∅ (fun _ => 0) 0 0 (initState nn start) := by
  refine
  { hE := ?_, hrk := ?_, hcard := rfl, hEnd := Finset.not_mem_empty _
  , hstart0 := ?_, hprevE := ?_, hprev := ?_, hprevRk := ?_, hprevSet := ?_
  , hlast0 := le_refl _, hlastTop := (by simp)
  , hheapLt := ?_, hheapFin := ?_, hheapLast := ?_, hheapCost := ?_
  , hfrozen := ?_, hEheap := ?_, huniq := ?_, hwitness := ?_, hrelaxed := ?_ }
  · intro u hu; exact absurd hu (Finset.not_mem_empty _)
  · intro u hu; exact absurd hu (Finset.not_mem_empty _)
  · simp [initState]
  · intro j hj
    exact absurd rfl hj
  · intro j hj
    exact absurd rfl hj
  · intro j hj; exact absurd hj (Finset.not_mem_empty _)
  · intro j hjs hjlt hjfin
    exfalso
    apply hjfin
    simp only [initState, Function.update_apply]
    rw [if_neg hjs]
  · intro e he
    rcases List.mem_singleton.mp he with rfl
    exact hstart
  · intro e he
    rcases List.mem_singleton.mp he with rfl
    simp
  · intro e he
    rcases List.mem_singleton.mp he with rfl
    exact le_refl _
  · intro e he
    rcases List.mem_singleton.mp he with rfl
    simp [initState]
  · intro u hu; exact absurd hu (Finset.not_mem_empty _)
  · intro u hu; exact absurd hu (Finset.not_mem_empty _)
  · intro j
    exact le_trans (List.countP_le_length _) (by simp [initState])
  · intro v hvE hvLt hvFin
    simp only [initState, Function.update_apply] at hvFin
    by_cases hvs : v = start
    · subst hvs
      refine ⟨⟨v, 0⟩, by simp [initState], rfl, ?_⟩
      simp [initState]
    · rw [if_neg hvs] at hvFin
      exact absurd rfl hvFin
  · intro u hu; exact absurd hu (Finset.not_mem_empty _)

/-! ### The main loop: termination with invariant and cost lower bound -/

theorem searchLoop_spec {w : ℕ → ℕ → Cost} {nn start endIdx : ℕ}
    (hw : ∀ i j, 0 ≤ w i j) :
    ∀ (fuel : ℕ) (E : Finset ℕ) (rk : ℕ → ℕ) (k : ℕ) (last : Cost) (s : DState),
      LoopInv w nn start endIdx E rk k last s →
      s.heap.length + (nn - 1) * (nn - k) + 1 ≤ fuel →
      ∃ s2, searchLoop w nn endIdx fuel s = some s2 ∧
        (∃ E2 rk2 k2, PostInv w nn start endIdx E2 rk2 k2 s2) ∧
        (∀ q, IsPath w nn start endIdx q → s2.costs endIdx ≤ pathCost w q) := by
  intro fuel
  induction fuel with
  | zero => intro E rk k last s _ hm; omega
  | succ fuel ih =>
    intro E rk k last s hinv hm
    rcases hpop : heapPop s.heap with - | ⟨cur, rest⟩
    · have hstep : searchLoop w nn endIdx (fuel + 1) s = some s := by
        rw [searchLoop, hpop]
      exact ⟨s, hstep, ⟨E, rk, k, hinv.toPostInv⟩,
        exhaust_LB hw hinv (heapPop_none hpop)⟩
    · have hlen : s.heap.length = rest.length + 1 := heapPop_length hpop
      by_cases hend : cur.index = endIdx
      · have hstep : searchLoop w nn endIdx (fuel + 1) s =
            some { s with heap := rest, counter := s.counter + 1 } := by
          rw [searchLoop, hpop]
          exact if_pos hend
        refine ⟨_, hstep, ⟨E, rk, k, ?_⟩, ?_⟩
        · exact
          { hE := hinv.hE, hrk := hinv.hrk, hcard := hinv.hcard
          , hEnd := hinv.hEnd, hstart0 := hinv.hstart0, hprevE := hinv.hprevE
          , hprev := hinv.hprev, hprevRk := hinv.hprevRk
          , hprevSet := hinv.hprevSet }
        · exact fun q hq => break_LB hw hinv hpop hend q hq
      · by_cases hstale : s.costs cur.index < cur.cost
        · have hstep : searchLoop w nn endIdx (fuel + 1) s =
              searchLoop w nn endIdx fuel
                { s with heap := rest, counter := s.counter + 1 } := by
            simp only [searchLoop, hpop]
            rw [if_neg hend, if_pos hstale]
          rw [hstep]
          exact ih E rk k cur.cost _ (pop_stale hinv hpop hstale)
            (by dsimp only; omega)
        · have hstep : searchLoop w nn endIdx (fuel + 1) s =
              searchLoop w nn endIdx fuel
                (expand w nn cur
                  { s with heap := rest, counter := s.counter + 1 }) := by
            simp only [searchLoop, hpop]
            rw [if_neg hend, if_neg hstale]
          rw [hstep]
          have hmid := pop_to_mid hinv hpop hend hstale
          obtain ⟨hmid2, hlen2⟩ := expand_fold_mid hw (List.range nn)
            { s with heap := rest, counter := s.counter + 1 } hmid
            (fun j hj => List.mem_range.mp hj)
          have hrel : ∀ v, v < nn → w cur.index v ≠ ⊤ →
              ((List.range nn).foldl (relax w cur)
                { s with heap := rest, counter := s.counter + 1 }).costs v ≤
                cur.cost + w cur.index v :=
            fun v hv hwv => foldl_relaxes (List.range nn) _ v
              (List.mem_range.mpr hv) hwv
          have hinv2 := mid_to_inv hmid2 hrel
          have hkn : k < nn := by
            have hsub : E ⊆ Finset.range nn :=
              fun u hu => Finset.mem_range.mpr (hinv.hE u hu)
            have hss : E ⊂ Finset.range nn :=
              (Finset.ssubset_iff_of_subset hsub).mpr
                ⟨cur.index, Finset.mem_range.mpr hmid.hcurLt, hmid.hcurE⟩
            calc k = E.card := hinv.hcard.symm
              _ < (Finset.range nn).card := Finset.card_lt_card hss
              _ = nn := Finset.card_range nn
          apply ih _ _ _ _ _ hinv2
          have hcount := countP_range_ne hmid.hcurLt
          have h5 : nn - k = (nn - (k + 1)) + 1 := by omega
          have h6 : (nn - 1) * (nn - k) = (nn - 1) * (nn - (k + 1)) + (nn - 1) := by
            rw [h5, Nat.mul_add, Nat.mul_one]
          have hlen3 : ((List.range nn).foldl (relax w cur)
              { s with heap := rest, counter := s.counter + 1 }).heap.length ≤
              rest.length + ((List.range nn).countP fun j =>
                decide (j ≠ cur.index)) := hlen2
          omega

/-! ### Reconstruction: the predecessor walk terminates at `start` with a
valid, optimal-cost, duplicate-free path -/

theorem backtrack_chain {w : ℕ → ℕ → Cost} {nn start endIdx : ℕ} {E : Finset ℕ}
    {rk : ℕ → ℕ} {k : ℕ} {s : DState}
    (hpost : PostInv w nn start endIdx E rk k s) (hstart : start < nn) :
    ∀ (b : ℕ) (u : ℕ), u ∈ E ∨ u = start → rk u ≤ b → u < nn →
      s.costs u ≠ ⊤ →
      ∃ l : List ℕ,
        (∀ fuel, l.length ≤ fuel →
          backtrack nn start s.previous fuel u = some l) ∧
        ((l = [] ∧ u = start) ∨ l.head? = some u) ∧
        l.Nodup ∧
        (∀ x ∈ l, x ≠ start ∧ x < nn ∧ x ∈ E ∧ rk x ≤ rk u) ∧
        IsPath w nn start u (start :: l.reverse) ∧
        pathCost w (start :: l.reverse) ≤ s.costs u := by
  intro b
  induction b with
  | zero =>
    intro u hu hrkb hult hufin
    by_cases hus : u = start
    · subst hus
      refine ⟨[], ?_, .inl ⟨rfl, rfl⟩, List.nodup_nil, ?_, ?_, ?_⟩
      · intro fuel _
        cases fuel with
        | zero => rw [backtrack, if_pos rfl]
        | succ f => rw [backtrack, if_pos rfl]
      · intro x hx; exact absurd hx (List.not_mem_nil x)
      · exact ⟨rfl, rfl, fun x hx => by
          rcases List.mem_singleton.mp hx with rfl; exact hstart,
          List.chain'_singleton _⟩
      · simp [pathCost, hpost.hstart0]
    · exfalso
      rcases hu with huE | huS
      · have hp := hpost.hprevSet u hus hult hufin
        exact absurd (hpost.hprevRk u huE hp) (by omega)
      · exact hus huS
  | succ b ihb =>
    intro u hu hrkb hult hufin
    by_cases hus : u = start
    · subst hus
      refine ⟨[], ?_, .inl ⟨rfl, rfl⟩, List.nodup_nil, ?_, ?_, ?_⟩
      · intro fuel _
        cases fuel with
        | zero => rw [backtrack, if_pos rfl]
        | succ f => rw [backtrack, if_pos rfl]
      · intro x hx; exact absurd hx (List.not_mem_nil x)
      · exact ⟨rfl, rfl, fun x hx => by
          rcases List.mem_singleton.mp hx with rfl; exact hstart,
          List.chain'_singleton _⟩
      · simp [pathCost, hpost.hstart0]
    · rcases hu with huE | huS
      swap
      · exact absurd huS hus
      have hpne := hpost.hprevSet u hus hult hufin
      obtain ⟨hplt, hpneu, hpw, hple⟩ := hpost.hprev u hpne
      have hpE := hpost.hprevE u hpne
      have hprk := hpost.hprevRk u huE hpne
      have hpfin : s.costs (s.previous u) ≠ ⊤ := by
        intro hc
        rw [hc, top_add] at hple
        exact hufin (top_le_iff.mp hple)
      obtain ⟨l0, hbt0, hshape0, hnodup0, hprop0, hpath0, hcost0⟩ :=
        ihb (s.previous u) (.inl hpE) (by omega) hplt hpfin
      have heq : start :: (u :: l0).reverse = (start :: l0.reverse) ++ [u] := by
        rw [List.reverse_cons]; rfl
      refine ⟨u :: l0, ?_, .inr rfl, ?_, ?_, ?_, ?_⟩
      · intro fuel hfuel
        cases fuel with
        | zero => simp at hfuel
        | succ f =>
          rw [backtrack, if_neg hus, if_pos hult]
          have hf : l0.length ≤ f := by
            simp only [List.length_cons] at hfuel
            omega
          rw [hbt0 f hf]
          rfl
      · refine List.nodup_cons.mpr ⟨?_, hnodup0⟩
        intro hmem
        have h4 := (hprop0 u hmem).2.2.2
        omega
      · intro x hx
        rcases List.mem_cons.mp hx with rfl | hx
        · exact ⟨hus, hult, huE, le_refl _⟩
        · obtain ⟨h1, h2, h3, h4⟩ := hprop0 x hx
          exact ⟨h1, h2, h3, by omega⟩
      · rw [heq]
        exact isPath_snoc hpath0 hpw hult
      · rw [heq, pathCost_snoc hpath0.2.1]
        calc pathCost w (start :: l0.reverse) + w (s.previous u) u
            ≤ s.costs (s.previous u) + w (s.previous u) u :=
              add_le_add_right hcost0 _
          _ ≤ s.costs u := hple

theorem backtrack_full {w : ℕ → ℕ → Cost} {nn start endIdx : ℕ} {E : Finset ℕ}
    {rk : ℕ → ℕ} {k : ℕ} {s : DState}
    (hpost : PostInv w nn start endIdx E rk k s) (hstart : start < nn)
    (hend : endIdx < nn) (hfin : s.costs endIdx ≠ ⊤) :
    ∃ l, backtrack nn start s.previous nn endIdx = some l ∧
      IsPath w nn start endIdx (start :: l.reverse) ∧
      pathCost w (start :: l.reverse) ≤ s.costs endIdx ∧
      (start :: l.reverse).Nodup := by
  by_cases hes : endIdx = start
  · subst hes
    refine ⟨[], ?_, ?_, ?_, ?_⟩
    · cases hnn : nn with
      | zero => omega
      | succ f => rw [backtrack, if_pos rfl]
    · exact ⟨rfl, rfl, fun x hx => by
        rcases List.mem_singleton.mp hx with rfl; exact hend,
        List.chain'_singleton _⟩
    · simp [pathCost, hpost.hstart0]
    · simp
  · have hpne := hpost.hprevSet endIdx hes hend hfin
    obtain ⟨hplt, hpneu, hpw, hple⟩ := hpost.hprev endIdx hpne
    have hpE := hpost.hprevE endIdx hpne
    have hpfin : s.costs (s.previous endIdx) ≠ ⊤ := by
      intro hc
      rw [hc, top_add] at hple
      exact hfin (top_le_iff.mp hple)
    obtain ⟨l0, hbt0, hshape0, hnodup0, hprop0, hpath0, hcost0⟩ :=
      backtrack_chain hpost hstart (rk (s.previous endIdx)) (s.previous endIdx)
        (.inl hpE) (le_refl _) hplt hpfin
    have hlen0 : l0.length ≤ k := by
      have hsubset : l0.toFinset ⊆ E := by
        intro x hx
        exact (hprop0 x (List.mem_toFinset.mp hx)).2.2.1
      calc l0.length = l0.toFinset.card :=
            (List.toFinset_card_of_nodup hnodup0).symm
        _ ≤ E.card := Finset.card_le_card hsubset
        _ = k := hpost.hcard
    have hkn : k ≤ nn - 1 := by
      have hsubset : E ⊆ (Finset.range nn).erase endIdx := by
        intro x hx
        refine Finset.mem_erase.mpr ⟨fun hc => hpost.hEnd ?_,
          Finset.mem_range.mpr (hpost.hE x hx)⟩
        rwa [← hc]
      calc k = E.card := hpost.hcard.symm
        _ ≤ ((Finset.range nn).erase endIdx).card := Finset.card_le_card hsubset
        _ = nn - 1 := by
            rw [Finset.card_erase_of_mem (Finset.mem_range.mpr hend),
              Finset.card_range]
    obtain ⟨f, hf⟩ : ∃ f, nn = f + 1 := ⟨nn - 1, by omega⟩
    subst hf
    have hlf : l0.length ≤ f := by omega
    have heq : start :: (endIdx :: l0).reverse = (start :: l0.reverse) ++ [endIdx] := by
      rw [List.reverse_cons]; rfl
    refine ⟨endIdx :: l0, ?_, ?_, ?_, ?_⟩
    · rw [backtrack, if_neg hes, if_pos hend]
      rw [hbt0 f hlf]
      rfl
    · rw [heq]
      exact isPath_snoc hpath0 hpw hend
    · rw [heq, pathCost_snoc hpath0.2.1]
      calc pathCost w (start :: l0.reverse) + w (s.previous endIdx) endIdx
          ≤ s.costs (s.previous endIdx) + w (s.previous endIdx) endIdx :=
            add_le_add_right hcost0 _
        _ ≤ s.costs endIdx := hple
    · refine List.nodup_cons.mpr ⟨?_, ?_⟩
      · intro hmem
        rw [List.mem_reverse] at hmem
        rcases List.mem_cons.mp hmem with hc | hc
        · exact hes hc.symm
        · exact (hprop0 start hc).1 rfl
      · rw [List.nodup_reverse]
        refine List.nodup_cons.mpr ⟨?_, hnodup0⟩
        intro hmem
        exact hpost.hEnd (hprop0 endIdx hmem).2.2.1

/-! ### Unpacking `shortest_path` -/

theorem shortest_path_eq {w : ℕ → ℕ → Cost} {nn start endIdx : ℕ} {p : List ℕ} :
    shortest_path w nn start endIdx = some p ↔
    ∃ s l, searchLoop w nn endIdx (nn * nn + 1) (initState nn start) = some s ∧
      backtrack nn start s.previous nn endIdx = some l ∧
      p = start :: l.reverse := by
  rcases h1 : searchLoop w nn endIdx (nn * nn + 1) (initState nn start) with - | s
  · have hred : shortest_path w nn start endIdx = none := by
      unfold shortest_path
      rw [h1]
    rw [hred]
    constructor
    · intro h; exact Option.noConfusion h
    · rintro ⟨s, l, hs, -, -⟩
      exact Option.noConfusion hs
  · rcases h2 : backtrack nn start s.previous nn endIdx with - | l
    · have hred : shortest_path w nn start endIdx = none := by
        unfold shortest_path
        rw [h1]
        show (match backtrack nn start s.previous nn endIdx with
              | none => none
              | some l => some (start :: l.reverse)) = none
        rw [h2]
      rw [hred]
      constructor
      · intro h; exact Option.noConfusion h
      · rintro ⟨s2, l2, hs2, hl2, -⟩
        have hss : s = s2 := by injection hs2
        subst hss
        exact Option.noConfusion (h2.symm.trans hl2)
    · have hred : shortest_path w nn start endIdx = some (start :: l.reverse) := by
        unfold shortest_path
        rw [h1]
        show (match backtrack nn start s.previous nn endIdx with
              | none => none
              | some l => some (start :: l.reverse)) = some (start :: l.reverse)
        rw [h2]
      rw [hred]
      constructor
      · intro h
        injection h with h4
        exact ⟨s, l, rfl, h2, h4.symm⟩
      · rintro ⟨s2, l2, hs2, hl2, rfl⟩
        have hss : s = s2 := by injection hs2
        subst hss
        have hll : l = l2 := by
          have h3 := h2.symm.trans hl2
          injection h3
        subst hll
        rfl

/-! ### The weight-agnostic invariant and path validity -/

theorem relax_slim {w : ℕ → ℕ → Cost} {nn : ℕ} {cur : Node} {s : DState} {j : ℕ}
    (hcur : cur.index < nn) (hj : j < nn)
    (hs : SlimInv w nn s) : SlimInv w nn (relax w cur s j) := by
  obtain ⟨hheap, hprev⟩ := hs
  unfold relax
  by_cases hwj : w cur.index j = ⊤
  · rw [if_pos hwj]; exact ⟨hheap, hprev⟩
  rw [if_neg hwj]
  by_cases hlt : cur.cost + w cur.index j < s.costs j
  swap
  · rw [if_neg hlt]; exact ⟨hheap, hprev⟩
  rw [if_pos hlt]
  constructor
  · intro e he
    rcases List.mem_cons.mp he with rfl | he
    · exact hj
    · exact hheap e he
  · intro m hm
    dsimp only at hm ⊢
    rcases eq_or_ne m j with rfl | hmj
    · rw [Function.update_same] at hm ⊢
      exact ⟨hcur, hwj⟩
    · rw [Function.update_noteq hmj] at hm ⊢
      exact hprev m hm

theorem expand_slim {w : ℕ → ℕ → Cost} {nn : ℕ} {cur : Node} {s : DState}
    (hcur : cur.index < nn) (hs : SlimInv w nn s) :
    SlimInv w nn (expand w nn cur s) := by
  unfold expand
  have hgen : ∀ (L : List ℕ), (∀ j ∈ L, j < nn) → ∀ s, SlimInv w nn s →
      SlimInv w nn (L.foldl (relax w cur) s) := by
    intro L
    induction L with
    | nil => intro _ s hs; exact hs
    | cons j t ih =>
      intro hL s hs
      rw [List.foldl_cons]
      exact ih (fun x hx => hL x (by simp [hx])) _
        (relax_slim hcur (hL j (by simp)) hs)
  exact hgen _ (fun j hj => List.mem_range.mp hj) s hs

theorem searchLoop_slim {w : ℕ → ℕ → Cost} {nn endIdx : ℕ} :
    ∀ (fuel : ℕ) (s s2 : DState), SlimInv w nn s →
      searchLoop w nn endIdx fuel s = some s2 → SlimInv w nn s2 := by
  intro fuel
  induction fuel with
  | zero => intro s s2 _ h; exact Option.noConfusion h
  | succ fuel ih =>
    intro s s2 hs h
    rw [searchLoop] at h
    rcases hpop : heapPop s.heap with - | ⟨cur, rest⟩ <;> rw [hpop] at h
    · have h3 : some s = some s2 := h
      injection h3 with h4
      exact h4 ▸ hs
    · have hcur : cur.index < nn := hs.1 cur (heapPop_mem hpop)
      have hsub := heapPop_sub hpop
      have hs1 : SlimInv w nn { s with heap := rest, counter := s.counter + 1 } :=
        ⟨fun e he => hs.1 e (hsub e he), hs.2⟩
      have h3 : (if cur.index = endIdx
          then some { s with heap := rest, counter := s.counter + 1 }
          else if s.costs cur.index < cur.cost
            then searchLoop w nn endIdx fuel
              { s with heap := rest, counter := s.counter + 1 }
            else searchLoop w nn endIdx fuel
              (expand w nn cur
                { s with heap := rest, counter := s.counter + 1 })) = some s2 := h
      by_cases hend : cur.index = endIdx
      · rw [if_pos hend] at h3
        injection h3 with h4
        exact h4 ▸ hs1
      · rw [if_neg hend] at h3
        by_cases hstale : s.costs cur.index < cur.cost
        · rw [if_pos hstale] at h3
          exact ih _ s2 hs1 h3
        · rw [if_neg hstale] at h3
          exact ih _ s2 (expand_slim hcur hs1) h3

theorem init_slim {w : ℕ → ℕ → Cost} {nn start : ℕ} (hstart : start < nn) :
    SlimInv w nn (initState nn start) := by
  constructor
  · intro e he
    rcases List.mem_singleton.mp he with rfl
    exact hstart
  · intro j hj
    exact absurd rfl hj

theorem backtrack_sentinel {nn start : ℕ} {previous : ℕ → ℕ}
    (hstart : start < nn) :
    ∀ fuel, backtrack nn start previous fuel nn = none := by
  intro fuel
  cases fuel with
  | zero => rw [backtrack, if_neg (by omega)]
  | succ f => rw [backtrack, if_neg (by omega), if_neg (by omega)]

theorem backtrack_shape {w : ℕ → ℕ → Cost} {nn start : ℕ} {previous : ℕ → ℕ}
    (hprev : ∀ j, previous j ≠ nn → previous j < nn ∧ w (previous j) j ≠ ⊤)
    (hstart : start < nn) :
    ∀ (fuel i : ℕ) (l : List ℕ), backtrack nn start previous fuel i = some l →
      ((l = [] ∧ i = start) ∨ l.head? = some i) ∧
      (start :: l.reverse).Chain' (fun a b => w a b ≠ ⊤) ∧
      (start :: l.reverse).getLast? = some i := by
  intro fuel
  induction fuel with
  | zero =>
    intro i l h
    rw [backtrack] at h
    by_cases his : i = start
    · rw [if_pos his] at h
      injection h with h4
      subst h4
      exact ⟨.inl ⟨rfl, his⟩, List.chain'_singleton _, by simp [his]⟩
    · rw [if_neg his] at h
      exact Option.noConfusion h
  | succ f ih =>
    intro i l h
    rw [backtrack] at h
    by_cases his : i = start
    · rw [if_pos his] at h
      injection h with h4
      subst h4
      exact ⟨.inl ⟨rfl, his⟩, List.chain'_singleton _, by simp [his]⟩
    · rw [if_neg his] at h
      by_cases hilt : i < nn
      · rw [if_pos hilt] at h
        rcases hrec : backtrack nn start previous f (previous i) with - | l0 <;>
          rw [hrec] at h
        · exact Option.noConfusion h
        · have h3 : some (i :: l0) = some l := h
          injection h3 with h4
          subst h4
          obtain ⟨hsh0, hch0, hlast0⟩ := ih (previous i) l0 hrec
          have hpne : previous i ≠ nn := by
            intro hc
            rw [hc, backtrack_sentinel hstart f] at hrec
            exact Option.noConfusion hrec
          obtain ⟨hplt, hpw⟩ := hprev i hpne
          have heq : start :: (i :: l0).reverse = (start :: l0.reverse) ++ [i] := by
            rw [List.reverse_cons]; rfl
          refine ⟨.inr rfl, ?_, ?_⟩
          · rw [heq, List.chain'_append]
            refine ⟨hch0, List.chain'_singleton _, ?_⟩
            intro x hx y hy
            rw [hlast0] at hx
            obtain rfl : previous i = x := by simpa using hx
            obtain rfl : i = y := by simpa using hy
            exact hpw
          · rw [heq, List.getLast?_concat]
      · rw [if_neg hilt] at h
        exact Option.noConfusion h

theorem init_measure {nn start : ℕ} (hstart : start < nn) :
    (initState nn start).heap.length + (nn - 1) * (nn - 0) + 1 ≤ nn * nn + 1 := by
  have h1 : (initState nn start).heap.length = 1 := rfl
  have h2 : (nn - 1) * nn = nn * nn - nn := by rw [Nat.sub_mul, Nat.one_mul]
  have h3 : nn ≤ nn * nn := Nat.le_mul_of_pos_left _ (by omega)
  rw [h1, Nat.sub_zero, h2]
  omega

/-! ### Claim C7: self-queries (confirmed) -/

/-- C7: for every weight matrix over `nn` nodes and every valid index `k`,
`shortest_path` with `start = end = k` returns exactly the one-element
path `[k]`: the first pop is the start node, which immediately breaks the
loop, and the reconstruction loop body never runs. -/
theorem self_path (w : ℕ → ℕ → Cost) (nn k : ℕ) (hk : k < nn) :
    shortest_path w nn k k = some [k] := by
  have hpop : heapPop (initState nn k).heap = some (⟨k, 0⟩, []) := rfl
  rw [shortest_path_eq]
  refine ⟨⟨(initState nn k).costs, (initState nn k).previous, [],
    (initState nn k).counter + 1⟩, [], ?_, ?_, rfl⟩
  · rw [searchLoop, hpop]
    exact if_pos rfl
  · cases nn with
    | zero => omega
    | succ f => rw [backtrack, if_pos rfl]

/-- Witness for `self_path` at a concrete instance. -/
theorem self_path_w :
    0 < 3 ∧ shortest_path (fun _ _ => (⊤ : Cost)) 3 0 0 = some [0] :=
  ⟨by decide, self_path _ 3 0 (by decide)⟩

/-! ### Claim C1: disconnected queries (code bug) -/

/-- C1 names a behaviour the code does not have: on the weight matrix built
from two nodes with no edges, the query from node `0` to the unreachable
node `1` does NOT return a recoverable "no path" outcome.  The predecessor
walk starts at `1`, steps to the sentinel `previous[1] = 2`, and then reads
`previous[2]` out of bounds — a panic, modelled here by `none`. -/
theorem disconnected_panics :
    shortest_path (Dijkstra.new (fun a b : Vec2 => distanceSq a b)
      [⟨0, 0⟩, ⟨1, 0⟩] []) 2 0 1 = none := by decide

/-! ### Claim C8: loop termination (confirmed) -/

/-- C8: with non-negative weights and a valid start index, the main search
loop runs to completion — early break at the end node or heap exhaustion —
within `nn * nn + 1` pops. -/
theorem search_terminates {w : ℕ → ℕ → Cost} {nn start endIdx : ℕ}
    (hw : ∀ i j, 0 ≤ w i j) (hstart : start < nn) :
    ∃ s, searchLoop w nn endIdx (nn * nn + 1) (initState nn start) = some s := by
  obtain ⟨s2, hs2, -, -⟩ := searchLoop_spec hw (nn * nn + 1) ∅ (fun _ => 0) 0 0
    (initState nn start) (init_inv hstart) (init_measure hstart)
  exact ⟨s2, hs2⟩

/-- Witness for `search_terminates` at a concrete instance. -/
theorem search_terminates_w :
    (∀ i j : ℕ, (0 : Cost) ≤ (fun _ _ => (⊤ : Cost)) i j) ∧ 0 < 2 ∧
      ∃ s, searchLoop (fun _ _ => (⊤ : Cost)) 2 1 (2 * 2 + 1) (initState 2 0)
        = some s :=
  ⟨fun _ _ => le_top, by decide,
    search_terminates (fun _ _ => le_top) (by decide)⟩

/-! ### Claim C2: optimality (confirmed) -/

/-- C2: with non-negative weights and reachable end node, `shortest_path`
returns a path whose total cost is the minimum total cost over all paths
from start to end. -/
theorem shortest_path_optimal {w : ℕ → ℕ → Cost} {nn start endIdx : ℕ}
    (hw : ∀ i j, 0 ≤ w i j) (hstart : start < nn) (hend : endIdx < nn)
    (hreach : ∃ q, IsPath w nn start endIdx q) :
    ∃ p, shortest_path w nn start endIdx = some p ∧
      IsPath w nn start endIdx p ∧
      ∀ q, IsPath w nn start endIdx q → pathCost w p ≤ pathCost w q := by
  obtain ⟨q0, hq0⟩ := hreach
  obtain ⟨s2, hs2, ⟨E2, rk2, k2, hpost⟩, hLB⟩ := searchLoop_spec hw (nn * nn + 1)
    ∅ (fun _ => 0) 0 0 (initState nn start) (init_inv hstart) (init_measure hstart)
  have hfin : s2.costs endIdx ≠ ⊤ := by
    intro hc
    have h1 := hLB q0 hq0
    rw [hc] at h1
    exact pathCost_ne_top hq0.2.2.2 (top_le_iff.mp h1)
  obtain ⟨l, hbt, hpath, hcost, hnodup⟩ := backtrack_full hpost hstart hend hfin
  refine ⟨start :: l.reverse, shortest_path_eq.mpr ⟨s2, l, hs2, hbt, rfl⟩,
    hpath, ?_⟩
  intro q hq
  exact le_trans hcost (hLB q hq)

/-- Witness for `shortest_path_optimal` at a concrete instance. -/
theorem shortest_path_optimal_w :
    ∃ p, shortest_path (fun _ _ => (1 : Cost)) 2 0 1 = some p ∧
      IsPath (fun _ _ => (1 : Cost)) 2 0 1 p ∧
      ∀ q, IsPath (fun _ _ => (1 : Cost)) 2 0 1 q →
        pathCost (fun _ _ => (1 : Cost)) p ≤ pathCost (fun _ _ => (1 : Cost)) q :=
  shortest_path_optimal (fun _ _ => by decide) (by decide) (by decide)
    ⟨[0, 1], rfl, rfl, by decide,
      List.chain'_cons.mpr ⟨by decide, List.chain'_singleton _⟩⟩

/-! ### Claim C10: returned paths are simple (confirmed) -/

/-- C10: with non-negative weights and reachable end node, the returned path
contains no repeated node index. -/
theorem returned_path_nodup {w : ℕ → ℕ → Cost} {nn start endIdx : ℕ}
    (hw : ∀ i j, 0 ≤ w i j) (hstart : start < nn) (hend : endIdx < nn)
    (hreach : ∃ q, IsPath w nn start endIdx q) :
    ∃ p, shortest_path w nn start endIdx = some p ∧ p.Nodup := by
  obtain ⟨q0, hq0⟩ := hreach
  obtain ⟨s2, hs2, ⟨E2, rk2, k2, hpost⟩, hLB⟩ := searchLoop_spec hw (nn * nn + 1)
    ∅ (fun _ => 0) 0 0 (initState nn start) (init_inv hstart) (init_measure hstart)
  have hfin : s2.costs endIdx ≠ ⊤ := by
    intro hc
    have h1 := hLB q0 hq0
    rw [hc] at h1
    exact pathCost_ne_top hq0.2.2.2 (top_le_iff.mp h1)
  obtain ⟨l, hbt, hpath, hcost, hnodup⟩ := backtrack_full hpost hstart hend hfin
  exact ⟨start :: l.reverse, shortest_path_eq.mpr ⟨s2, l, hs2, hbt, rfl⟩, hnodup⟩

/-- Witness for `returned_path_nodup` at a concrete instance. -/
theorem returned_path_nodup_w :
    ∃ p, shortest_path (fun _ _ => (1 : Cost)) 2 0 1 = some p ∧ p.Nodup :=
  returned_path_nodup (fun _ _ => by decide) (by decide) (by decide)
    ⟨[0, 1], rfl, rfl, by decide,
      List.chain'_cons.mpr ⟨by decide, List.chain'_singleton _⟩⟩

/-! ### Claim C6: validity of returned paths (confirmed) -/

/-- C6: whenever `shortest_path` successfully returns a path `p` (for a valid
start index), `p` starts at `start`, ends at `end`, and every consecutive
pair of nodes in `p` is joined by a finite-weight edge.  No assumption on
the weights is needed. -/
theorem returned_path_valid {w : ℕ → ℕ → Cost} {nn start endIdx : ℕ}
    {p : List ℕ} (hstart : start < nn)
    (hsucc : shortest_path w nn start endIdx = some p) :
    p.head? = some start ∧ p.getLast? = some endIdx ∧
      p.Chain' (fun a b => w a b ≠ ⊤) := by
  obtain ⟨s, l, hs, hl, rfl⟩ := shortest_path_eq.mp hsucc
  have hslim := searchLoop_slim _ _ _ (init_slim hstart) hs
  obtain ⟨hshape, hchain, hlast⟩ := backtrack_shape hslim.2 hstart nn endIdx l hl
  exact ⟨rfl, hlast, hchain⟩

/-- Witness for `returned_path_valid` at a concrete instance. -/
theorem returned_path_valid_w :
    0 < 1 ∧
      ([0] : List ℕ).head? = some 0 ∧ ([0] : List ℕ).getLast? = some 0 ∧
      ([0] : List ℕ).Chain' (fun a b => (fun _ _ => (⊤ : Cost)) a b ≠ ⊤) :=
  ⟨by decide, @returned_path_valid (fun _ _ => (⊤ : Cost)) 1 0 0 [0]
    (by decide) (by decide)⟩

/-! ### Claim C4: frontier ordering (corrected) -/

/-- C4, as stated, is false: among equal-cost entries the heap pops the entry
with the LOWEST node index first, not the highest.  On the two-entry heap
`[(index 1, cost 5), (index 2, cost 5)]` the popped entry has index `1`. -/
theorem tiebreak_cex :
    ¬ (∀ (l : List Node) (m : Node) (r : List Node), heapPop l = some (m, r) →
        ∀ x ∈ l, x.cost = m.cost → x.index ≤ m.index) := by
  intro h
  have h1 : heapPop [(⟨1, ((5 : ℚ) : Cost)⟩ : Node), ⟨2, ((5 : ℚ) : Cost)⟩] =
      some (⟨1, ((5 : ℚ) : Cost)⟩, [⟨2, ((5 : ℚ) : Cost)⟩]) := by decide
  have h2 := h _ _ _ h1 ⟨2, ((5 : ℚ) : Cost)⟩ (by decide) (by decide)
  exact absurd h2 (by decide)

/-- C4 amended: the frontier pop returns a minimum-key entry where the key is
`(cost, index)` ordered lexicographically — ascending tentative cost, and
among equal costs ascending (not descending) node index. -/
theorem heap_pop_order {l : List Node} {m : Node} {r : List Node}
    (h : heapPop l = some (m, r)) :
    ∀ x ∈ l, m.cost < x.cost ∨ (m.cost = x.cost ∧ m.index ≤ x.index) :=
  fun x hx => (heapPop_spec h).2 x hx

/-- Witness for `heap_pop_order` at a concrete heap. -/
theorem heap_pop_order_w :
    heapPop [(⟨1, ((5 : ℚ) : Cost)⟩ : Node), ⟨2, ((5 : ℚ) : Cost)⟩] =
      some (⟨1, ((5 : ℚ) : Cost)⟩, [⟨2, ((5 : ℚ) : Cost)⟩]) ∧
    ∀ x ∈ [(⟨1, ((5 : ℚ) : Cost)⟩ : Node), ⟨2, ((5 : ℚ) : Cost)⟩],
      (⟨1, ((5 : ℚ) : Cost)⟩ : Node).cost < x.cost ∨
        ((⟨1, ((5 : ℚ) : Cost)⟩ : Node).cost = x.cost ∧
          (⟨1, ((5 : ℚ) : Cost)⟩ : Node).index ≤ x.index) :=
  ⟨by decide, @heap_pop_order [⟨1, ((5 : ℚ) : Cost)⟩, ⟨2, ((5 : ℚ) : Cost)⟩]
    ⟨1, ((5 : ℚ) : Cost)⟩ [⟨2, ((5 : ℚ) : Cost)⟩] (by decide)⟩
